import Mathlib

/-!
# Verification of the booking / waitlist / task core

Shallow embedding of `event_planner_api/app/services/booking_service.py` and
`event_planner_api/app/services/task_service.py`.  The SQLite tables
(`events`, `users`, `bookings`, `waitlist`, `tasks`) are modelled as lists of
records and each service method as a pure function on a `DB` state, returning
the new state together with an `Except` value mirroring the `ValueError`s the
Python code raises.  Auto-increment row ids are modelled with explicit
counters.  Database-generated `created_at` timestamps are not modelled: no
decision in these services reads them.  The `updated_at` column of `tasks`
(written with `datetime.utcnow()`) is modelled by threading the current time
as a `String` argument, matching SQLite's textual timestamp comparison.
-/

namespace EventPlanner

/-- Row of the `events` table (only the columns the booking core reads). -/
structure Event where
  id : Nat
  max_participants : Nat
  deriving DecidableEq, Repr

/-- Row of the `users` table (only the columns the booking core reads). -/
structure User where
  id : Nat
  email : String
  deriving DecidableEq, Repr

/-- Row of the `bookings` table. -/
structure Booking where
  id : Nat
  user_id : Nat
  event_id : Nat
  group_size : Nat
  status : String
  is_paid : Bool
  is_attended : Bool
  group_names : Option (List String)
  deriving DecidableEq, Repr

/-- Row of the `waitlist` table. -/
structure WaitlistEntry where
  id : Nat
  event_id : Nat
  user_id : Nat
  position : Nat
  deriving DecidableEq, Repr

/-- Row of the `tasks` table created by `TaskService._ensure_table_exists`. -/
structure Task where
  id : Nat
  type : String
  object_id : Nat
  messenger : String
  scheduled_at : Option String
  status : String
  updated_at : Option String
  deriving DecidableEq, Repr

/-- The SQLite database state, with auto-increment counters for row ids. -/
structure DB where
  events : List Event
  users : List User
  bookings : List Booking
  waitlist : List WaitlistEntry
  tasks : List Task
  nextBookingId : Nat
  nextWaitlistId : Nat
  nextTaskId : Nat
  deriving DecidableEq, Repr

/-- The distinct `ValueError` conditions raised by the two services. -/
inductive Err where
  | userNotFound
  | eventNotFound
  | eventFull
  | bookingNotFound
  | entryNotFound
  | notAuthorized
  | noSeats
  | taskNotFound
  deriving DecidableEq, Repr

/-- `SELECT id FROM users WHERE email = ?` (first row). -/
def findUserByEmail (db : DB) (email : String) : Option Nat :=
  (db.users.find? (·.email == email)).map (·.id)

/-- `SELECT max_participants FROM events WHERE id = ?` (first row). -/
def eventCapacity (db : DB) (event_id : Nat) : Option Nat :=
  (db.events.find? (·.id == event_id)).map (·.max_participants)

/-- `SELECT COALESCE(SUM(group_size), 0) FROM bookings WHERE event_id = ?`
on an explicit list of booking rows. -/
def seatsOf (bs : List Booking) (event_id : Nat) : Nat :=
  ((bs.filter (·.event_id == event_id)).map (·.group_size)).sum

/-- Seats occupied for an event in the database state. -/
def bookedSeats (db : DB) (event_id : Nat) : Nat :=
  seatsOf db.bookings event_id

/-- The waitlist rows of one event, in table order. -/
def eventWaitlist (db : DB) (event_id : Nat) : List WaitlistEntry :=
  db.waitlist.filter (·.event_id == event_id)

/-- Positions of an event's waitlist rows, on an explicit list of rows. -/
def posOf (wl : List WaitlistEntry) (event_id : Nat) : List Nat :=
  (wl.filter (·.event_id == event_id)).map (·.position)

/-- Positions of an event's waitlist rows in the database state. -/
def posList (db : DB) (event_id : Nat) : List Nat :=
  posOf db.waitlist event_id

/-- `SELECT COALESCE(MAX(position), 0) FROM waitlist WHERE event_id = ?`. -/
def maxWaitlistPos (db : DB) (event_id : Nat) : Nat :=
  (posList db event_id).foldr max 0

/-- Python truthiness of `group_names` when stored: `json.dumps(ns) if ns
else None`, so `None` and the empty list are both stored as NULL. -/
def normNames : Option (List String) → Option (List String)
  | none => none
  | some l => if l.isEmpty then none else some l

/-- `BookingService.create_booking` (booking_service.py lines 24-142).
Resolves the user, reads the event capacity, and either inserts a booking
(when `current_booked + group_size <= capacity`) or appends a waitlist row at
`MAX(position) + 1` and raises "Event is full", after committing the row. -/
def create_booking (db : DB) (event_id : Nat) (user_email : String)
    (group_size : Nat) (group_names : Option (List String)) :
    DB × Except Err Booking :=
  match findUserByEmail db user_email with
  | none => (db, .error .userNotFound)
  | some user_id =>
    match eventCapacity db event_id with
    | none => (db, .error .eventNotFound)
    | some capacity =>
      if bookedSeats db event_id + group_size ≤ capacity then
        let stored : Booking :=
          { id := db.nextBookingId, user_id := user_id, event_id := event_id,
            group_size := group_size, status := "pending",
            is_paid := false, is_attended := false,
            group_names := normNames group_names }
        ({ db with bookings := db.bookings ++ [stored],
                   nextBookingId := db.nextBookingId + 1 },
         .ok { stored with group_names := group_names })
      else
        let w : WaitlistEntry :=
          { id := db.nextWaitlistId, event_id := event_id, user_id := user_id,
            position := maxWaitlistPos db event_id + 1 }
        ({ db with waitlist := db.waitlist ++ [w],
                   nextWaitlistId := db.nextWaitlistId + 1 },
         .error .eventFull)

/-- Accumulator step selecting the row with the smallest position (first
one on ties). -/
def minPosStep (acc : Option WaitlistEntry) (w : WaitlistEntry) :
    Option WaitlistEntry :=
  match acc with
  | none => some w
  | some m => if w.position < m.position then some w else m

/-- First waitlist row by `ORDER BY position ASC LIMIT 1` for an event. -/
def minPosEntry (db : DB) (event_id : Nat) : Option WaitlistEntry :=
  (eventWaitlist db event_id).foldl minPosStep none

/-- Body of the `while seats < capacity` loop of
`BookingService._promote_from_waitlist` (lines 404-421), recursing on the
remaining free seats `capacity - seats` (the loop increments `seats` by one
per iteration, so this fuel decreases by exactly one): pop the entry with
the smallest position, delete its row (note: with no position compaction),
insert a `group_size = 1` booking with status `pending`. -/
def promoteGo (db : DB) (event_id : Nat) : Nat → DB
  | 0 => db
  | fuel + 1 =>
    match minPosEntry db event_id with
    | none => db
    | some w =>
      let b : Booking :=
        { id := db.nextBookingId, user_id := w.user_id, event_id := event_id,
          group_size := 1, status := "pending",
          is_paid := false, is_attended := false, group_names := none }
      promoteGo
        { db with waitlist := db.waitlist.filter (·.id != w.id),
                  bookings := db.bookings ++ [b],
                  nextBookingId := db.nextBookingId + 1 }
        event_id fuel

/-- The `while seats < capacity` loop, entered with the current seat
count. -/
def promoteLoop (db : DB) (event_id capacity seats : Nat) : DB :=
  promoteGo db event_id (capacity - seats)

/-- `BookingService._promote_from_waitlist` (lines 378-424). -/
def promote_from_waitlist (db : DB) (event_id : Nat) : DB :=
  match eventCapacity db event_id with
  | none => db
  | some capacity => promoteLoop db event_id capacity (bookedSeats db event_id)

/-- Insertion step of a stable sort by ascending position, modelling
`ORDER BY position ASC`. -/
def insertByPos (w : WaitlistEntry) : List WaitlistEntry → List WaitlistEntry
  | [] => [w]
  | x :: xs => if w.position < x.position then w :: x :: xs else x :: insertByPos w xs

/-- Stable sort by ascending position. -/
def sortByPos (l : List WaitlistEntry) : List WaitlistEntry :=
  l.foldr insertByPos []

/-- `BookingService.list_waitlist` (lines 228-240):
`SELECT ... FROM waitlist WHERE event_id = ? ORDER BY position ASC`. -/
def list_waitlist (db : DB) (event_id : Nat) : List WaitlistEntry :=
  sortByPos (eventWaitlist db event_id)

/-- `TaskService.create_waitlist_tasks` (task_service.py lines 97-134):
one `('waitlist', entry_id, messenger)` row per messenger, inserted
unconditionally with status `pending`. -/
def create_waitlist_tasks (db : DB) (entry_id : Nat) (messengers : List String)
    (scheduled_at : Option String) : DB :=
  messengers.foldl
    (fun d m =>
      { d with
          tasks := d.tasks ++
            [{ id := d.nextTaskId, type := "waitlist", object_id := entry_id,
               messenger := m, scheduled_at := scheduled_at,
               status := "pending", updated_at := none }],
          nextTaskId := d.nextTaskId + 1 })
    db

/-- `TaskService.complete_waitlist_tasks` (lines 137-160):
`UPDATE tasks SET status = 'completed' WHERE type = 'waitlist' AND object_id = ?`. -/
def complete_waitlist_tasks (db : DB) (entry_id : Nat) (now : String) : DB :=
  { db with
      tasks := db.tasks.map (fun t =>
        if t.type = "waitlist" ∧ t.object_id = entry_id then
          { t with status := "completed", updated_at := some now }
        else t) }

/-- Availability filter of `TaskService.get_pending_tasks`:
`scheduled_at IS NULL OR scheduled_at <= ?` (textual comparison). -/
def taskAvailable (t : Task) (now : String) : Bool :=
  match t.scheduled_at with
  | none => true
  | some s => decide (s ≤ now)

/-- Row selection of `TaskService.get_pending_tasks` (lines 196-203):
`WHERE messenger = ? AND status = 'pending' AND (scheduled_at IS NULL OR
scheduled_at <= ?)`.  The enrichment loop only resolves display strings for
the selected rows and is not modelled. -/
def get_pending_tasks (db : DB) (messenger : String) (now : String) : List Task :=
  db.tasks.filter (fun t =>
    t.messenger == messenger && t.status == "pending" && taskAvailable t now)

/-- `TaskService.complete_task` (lines 283-313): not-found check, then
`UPDATE tasks SET status = 'completed', updated_at = ? WHERE id = ?`. -/
def complete_task (db : DB) (task_id : Nat) (now : String) :
    DB × Except Err Unit :=
  match db.tasks.find? (·.id == task_id) with
  | none => (db, .error .taskNotFound)
  | some _ =>
    ({ db with
         tasks := db.tasks.map (fun t =>
           if t.id = task_id then
             { t with status := "completed", updated_at := some now }
           else t) },
     .ok ())

/-- `BookingService.notify_waitlist_users` (booking_service.py lines
440-473): one task per supported messenger for every current waitlist entry
of the event. -/
def notify_waitlist_users (db : DB) (event_id : Nat) : DB :=
  (list_waitlist db event_id).foldl
    (fun d e => create_waitlist_tasks d e.id ["telegram", "vk", "max"] none)
    db

/-- `BookingService.delete_booking_with_promotion` (lines 310-364), with the
`waitlist_auto_promote` setting resolved by the caller into `auto` (see
spec section 9: the policy is passed per invocation). -/
def delete_booking_with_promotion (db : DB) (booking_id : Nat) (auto : Bool) :
    DB × Except Err Unit :=
  match db.bookings.find? (·.id == booking_id) with
  | none => (db, .error .bookingNotFound)
  | some b =>
    let db1 : DB := { db with bookings := db.bookings.filter (·.id != booking_id) }
    if auto then (promote_from_waitlist db1 b.event_id, .ok ())
    else (notify_waitlist_users db1 b.event_id, .ok ())

/-- `BookingService.confirm_waitlist` (lines 475-596). -/
def confirm_waitlist (db : DB) (entry_id : Nat) (user_email : String)
    (now : String) : DB × Except Err Booking :=
  match db.waitlist.find? (·.id == entry_id) with
  | none => (db, .error .entryNotFound)
  | some wl =>
    match findUserByEmail db user_email with
    | none => (db, .error .notAuthorized)
    | some uid =>
      if uid ≠ wl.user_id then (db, .error .notAuthorized)
      else
        match eventCapacity db wl.event_id with
        | none => (db, .error .eventNotFound)
        | some capacity =>
          if capacity ≤ bookedSeats db wl.event_id then (db, .error .noSeats)
          else
            let b : Booking :=
              { id := db.nextBookingId, user_id := wl.user_id,
                event_id := wl.event_id, group_size := 1, status := "pending",
                is_paid := false, is_attended := false, group_names := none }
            let db1 : DB :=
              { db with
                  waitlist := (db.waitlist.filter (·.id != entry_id)).map
                    (fun w =>
                      if w.event_id = wl.event_id ∧ wl.position < w.position then
                        { w with position := w.position - 1 }
                      else w),
                  bookings := db.bookings ++ [b],
                  nextBookingId := db.nextBookingId + 1 }
            (complete_waitlist_tasks db1 entry_id now, .ok b)

/-- `BookingService.update_booking` (lines 669-750).  `group_size?` is
`None` when the key is absent or its value is `None`; `set_names` says
whether the `group_names` key is present in the updates dict. -/
def update_booking (db : DB) (booking_id : Nat) (group_size? : Option Nat)
    (set_names : Bool) (names : Option (List String)) :
    DB × Except Err Booking :=
  match db.bookings.find? (·.id == booking_id) with
  | none => (db, .error .bookingNotFound)
  | some b0 =>
    if group_size?.isNone ∧ ¬set_names then (db, .ok b0)
    else
      let upd : Booking → Booking := fun b =>
        { b with
            group_size := group_size?.getD b.group_size,
            group_names := if set_names then normNames names else b.group_names }
      ({ db with
           bookings := db.bookings.map (fun b =>
             if b.id = booking_id then upd b else b) },
       .ok (upd b0))

/-- `BookingService.update_waitlist_entry` (lines 785-859). -/
def update_waitlist_entry (db : DB) (entry_id : Nat) (new_position : Int) :
    DB × Except Err WaitlistEntry :=
  match db.waitlist.find? (·.id == entry_id) with
  | none => (db, .error .entryNotFound)
  | some cur =>
    let event_id := cur.event_id
    let cur_pos := cur.position
    let max_pos : Nat := (eventWaitlist db event_id).length
    let np1 : Int := if new_position < 1 then 1 else new_position
    let np2 : Int := if (max_pos : Int) < np1 then (max_pos : Int) else np1
    let np : Nat := np2.toNat
    let shifted : List WaitlistEntry :=
      if np < cur_pos then
        db.waitlist.map (fun w =>
          if w.event_id = event_id ∧ np ≤ w.position ∧ w.position < cur_pos then
            { w with position := w.position + 1 }
          else w)
      else if cur_pos < np then
        db.waitlist.map (fun w =>
          if w.event_id = event_id ∧ cur_pos < w.position ∧ w.position ≤ np then
            { w with position := w.position - 1 }
          else w)
      else db.waitlist
    ({ db with
         waitlist := shifted.map (fun w =>
           if w.id = entry_id then { w with position := np } else w) },
     .ok { cur with position := np })

/-- `BookingService.delete_waitlist_entry` (lines 861-894). -/
def delete_waitlist_entry (db : DB) (entry_id : Nat) : DB × Except Err Unit :=
  match db.waitlist.find? (·.id == entry_id) with
  | none => (db, .error .entryNotFound)
  | some cur =>
    ({ db with
         waitlist := (db.waitlist.filter (·.id != entry_id)).map
           (fun w =>
             if w.event_id = cur.event_id ∧ cur.position < w.position then
               { w with position := w.position - 1 }
             else w) },
     .ok ())

/-!
## Theorems
-/

/-- C2.  Admission decision of `create_booking`: with the user and event
resolved, if `party_size` is at most the available capacity (capacity minus
the booked total), a booking row is inserted and returned; otherwise a
waitlist row is appended at `MAX(position) + 1` and the caller receives the
declined-admission error (`Event is full`) instead of a booking. -/
theorem create_booking_admission (db : DB) (event_id : Nat) (email : String)
    (group_size : Nat) (names : Option (List String)) (uid cap : Nat)
    (hu : findUserByEmail db email = some uid)
    (he : eventCapacity db event_id = some cap)
    (hsize : 1 ≤ group_size) :
    (group_size ≤ cap - bookedSeats db event_id →
      create_booking db event_id email group_size names =
        ({ db with
             bookings := db.bookings ++
               [{ id := db.nextBookingId, user_id := uid, event_id := event_id,
                  group_size := group_size, status := "pending",
                  is_paid := false, is_attended := false,
                  group_names := normNames names }],
             nextBookingId := db.nextBookingId + 1 },
         .ok { id := db.nextBookingId, user_id := uid, event_id := event_id,
               group_size := group_size, status := "pending",
               is_paid := false, is_attended := false,
               group_names := names })) ∧
    (cap - bookedSeats db event_id < group_size →
      create_booking db event_id email group_size names =
        ({ db with
             waitlist := db.waitlist ++
               [{ id := db.nextWaitlistId, event_id := event_id,
                  user_id := uid,
                  position := maxWaitlistPos db event_id + 1 }],
             nextWaitlistId := db.nextWaitlistId + 1 },
         .error .eventFull)) := by
  constructor
  · intro h
    have hc : bookedSeats db event_id + group_size ≤ cap := by omega
    simp [create_booking, hu, he, hc]
  · intro h
    have hc : ¬(bookedSeats db event_id + group_size ≤ cap) := by omega
    simp [create_booking, hu, he, hc]

/-- Concrete database used to witness the admission theorems. -/
def dbAdm : DB :=
  { events := [{ id := 1, max_participants := 2 }],
    users := [{ id := 7, email := "a@x" }],
    bookings := [], waitlist := [], tasks := [],
    nextBookingId := 0, nextWaitlistId := 0, nextTaskId := 0 }

/-- Witness for C2 at a concrete admitted request. -/
theorem create_booking_admission_witness :
    create_booking dbAdm 1 "a@x" 1 none =
      ({ dbAdm with
           bookings := [{ id := 0, user_id := 7, event_id := 1,
                          group_size := 1, status := "pending",
                          is_paid := false, is_attended := false,
                          group_names := none }],
           nextBookingId := 1 },
       .ok { id := 0, user_id := 7, event_id := 1, group_size := 1,
             status := "pending", is_paid := false, is_attended := false,
             group_names := none }) :=
  (create_booking_admission dbAdm 1 "a@x" 1 none 7 2 (by decide) (by decide)
    (by decide)).1 (by decide)

/-- C10.  When a create request overflows capacity, the new waitlist row is
inserted and committed even though the caller observes the `Event is full`
error: the waitlist has grown by exactly one entry and the bookings are
unchanged. -/
theorem create_booking_overflow_commits (db : DB) (event_id : Nat)
    (email : String) (group_size : Nat) (names : Option (List String))
    (uid cap : Nat)
    (hu : findUserByEmail db email = some uid)
    (he : eventCapacity db event_id = some cap)
    (hfull : cap < bookedSeats db event_id + group_size) :
    (create_booking db event_id email group_size names).2 =
        .error .eventFull ∧
    (create_booking db event_id email group_size names).1.waitlist =
        db.waitlist ++
          [{ id := db.nextWaitlistId, event_id := event_id, user_id := uid,
             position := maxWaitlistPos db event_id + 1 }] ∧
    (create_booking db event_id email group_size names).1.waitlist.length =
        db.waitlist.length + 1 ∧
    (create_booking db event_id email group_size names).1.bookings =
        db.bookings := by
  have hc : ¬(bookedSeats db event_id + group_size ≤ cap) := by omega
  simp [create_booking, hu, he, hc]

/-- Concrete database used to witness the overflow-commit theorem. -/
def dbFull : DB :=
  { events := [{ id := 1, max_participants := 1 }],
    users := [{ id := 7, email := "a@x" }],
    bookings := [{ id := 0, user_id := 7, event_id := 1, group_size := 1,
                   status := "pending", is_paid := false,
                   is_attended := false, group_names := none }],
    waitlist := [], tasks := [],
    nextBookingId := 1, nextWaitlistId := 0, nextTaskId := 0 }

/-- Witness for C10 at a concrete overflowing request. -/
theorem create_booking_overflow_commits_witness :
    (create_booking dbFull 1 "a@x" 1 none).2 = .error .eventFull ∧
    (create_booking dbFull 1 "a@x" 1 none).1.waitlist =
      [{ id := 0, event_id := 1, user_id := 7, position := 1 }] ∧
    (create_booking dbFull 1 "a@x" 1 none).1.waitlist.length = 1 ∧
    (create_booking dbFull 1 "a@x" 1 none).1.bookings = dbFull.bookings := by
  have h := create_booking_overflow_commits dbFull 1 "a@x" 1 none 7 1
    (by decide) (by decide) (by decide)
  simpa [dbFull, maxWaitlistPos, posList, posOf] using h

/-- C9.  Frame of `update_booking`: for an existing booking it changes only
`group_size` and `group_names` of that booking, leaves its other fields and
all other rows (bookings, events, users, waitlist, tasks) unchanged, and
succeeds without any capacity re-validation (there is no capacity
hypothesis: a growing `group_size` is accepted even past capacity). -/
theorem update_booking_frame (db : DB) (bid : Nat) (gs? : Option Nat)
    (set_names : Bool) (names : Option (List String)) (b0 : Booking)
    (hfind : db.bookings.find? (·.id == bid) = some b0) :
    (update_booking db bid gs? set_names names).2 =
      .ok { b0 with
              group_size := gs?.getD b0.group_size,
              group_names :=
                if set_names then normNames names else b0.group_names } ∧
    (update_booking db bid gs? set_names names).1.events = db.events ∧
    (update_booking db bid gs? set_names names).1.users = db.users ∧
    (update_booking db bid gs? set_names names).1.waitlist = db.waitlist ∧
    (update_booking db bid gs? set_names names).1.tasks = db.tasks ∧
    (update_booking db bid gs? set_names names).1.bookings =
      db.bookings.map (fun b =>
        if b.id = bid then
          { b with
              group_size := gs?.getD b.group_size,
              group_names :=
                if set_names then normNames names else b.group_names }
        else b) := by
  unfold update_booking
  rw [hfind]
  simp only []
  split
  · next h =>
    obtain ⟨h1, h2⟩ := h
    rw [Option.isNone_iff_eq_none] at h1
    subst h1
    have h2' : set_names = false := by
      cases set_names
      · rfl
      · exact absurd rfl h2
    subst h2'
    refine ⟨rfl, rfl, rfl, rfl, rfl, ?_⟩
    have : (db.bookings.map (fun b =>
        if b.id = bid then
          { b with
              group_size := (Option.getD none b.group_size),
              group_names :=
                if false = true then normNames names else b.group_names }
        else b)) = db.bookings.map (fun b => b) := by
      apply List.map_congr_left
      intro b _
      split <;> rfl
    rw [this, List.map_id']
  · refine ⟨rfl, rfl, rfl, rfl, rfl, rfl⟩

/-- Concrete database used to witness the update frame theorem; the update
grows the booking past the capacity of 1. -/
def dbUpd : DB :=
  { events := [{ id := 1, max_participants := 1 }],
    users := [{ id := 7, email := "a@x" }],
    bookings := [{ id := 0, user_id := 7, event_id := 1, group_size := 1,
                   status := "pending", is_paid := false,
                   is_attended := false, group_names := none }],
    waitlist := [], tasks := [],
    nextBookingId := 1, nextWaitlistId := 0, nextTaskId := 0 }

/-- Witness for C9: the concrete update to `group_size = 3` succeeds even
though it pushes the booked total above the capacity. -/
theorem update_booking_frame_witness :
    (update_booking dbUpd 0 (some 3) false none).2 =
      .ok { id := 0, user_id := 7, event_id := 1, group_size := 3,
            status := "pending", is_paid := false, is_attended := false,
            group_names := none } ∧
    (update_booking dbUpd 0 (some 3) false none).1.tasks = dbUpd.tasks ∧
    bookedSeats (update_booking dbUpd 0 (some 3) false none).1 1 = 3 ∧
    eventCapacity dbUpd 1 = some 1 := by
  have h := update_booking_frame dbUpd 0 (some 3) false none
    { id := 0, user_id := 7, event_id := 1, group_size := 1,
      status := "pending", is_paid := false, is_attended := false,
      group_names := none } (by decide)
  exact ⟨h.1, h.2.2.2.2.1, by decide, by decide⟩

/-- Any element of a task list after the completion map whose id is the
completed id has status `completed`. -/
theorem mark_completed_mem {l : List Task} {tid : Nat} {now : String} {t : Task}
    (ht : t ∈ l.map (fun s =>
      if s.id = tid then { s with status := "completed", updated_at := some now }
      else s))
    (htid : t.id = tid) : t.status = "completed" := by
  obtain ⟨s, hs, rfl⟩ := List.mem_map.1 ht
  by_cases h : s.id = tid
  · simp [h]
  · rw [if_neg h] at htid ⊢
    exact absurd htid h

/-- The completion map preserves task ids, so `find?` by id commutes with
it. -/
theorem find?_id_mark {l : List Task} {tid : Nat} {now : String} :
    (l.map (fun s =>
      if s.id = tid then { s with status := "completed", updated_at := some now }
      else s)).find? (·.id == tid) =
    (l.find? (·.id == tid)).map (fun s =>
      if s.id = tid then { s with status := "completed", updated_at := some now }
      else s) := by
  rw [List.find?_map]
  have hp : ((fun t : Task => t.id == tid) ∘ (fun s : Task =>
      if s.id = tid then { s with status := "completed", updated_at := some now }
      else s)) = fun t : Task => t.id == tid := by
    funext s
    by_cases h : s.id = tid <;> simp [Function.comp, h]
  rw [hp]

/-- C6.  `complete_task` idempotence: on an existing task it succeeds and
sets the task to `completed` (also when it already was: a no-op, not an
error); completing twice leaves the same state as completing once; a
nonexistent id is reported not-found with the state unchanged; and after
completion the task is never again returned by `get_pending_tasks` for any
messenger or time. -/
theorem complete_task_idempotent (db : DB) (tid : Nat) (t1 t2 : String) :
    (∀ t0, db.tasks.find? (·.id == tid) = some t0 →
      ((complete_task db tid t1).2 = .ok () ∧
       (∀ t ∈ (complete_task db tid t1).1.tasks, t.id = tid →
          t.status = "completed") ∧
       ((complete_task (complete_task db tid t1).1 tid t2).1 =
          (complete_task db tid t2).1 ∧
        (complete_task (complete_task db tid t1).1 tid t2).2 = .ok ()) ∧
       (∀ m now t, t ∈ get_pending_tasks (complete_task db tid t1).1 m now →
          t.id ≠ tid))) ∧
    (db.tasks.find? (·.id == tid) = none →
      complete_task db tid t1 = (db, .error .taskNotFound)) := by
  constructor
  · intro t0 hf
    have e1 : (complete_task db tid t1).1 =
        { db with tasks := db.tasks.map (fun s =>
            if s.id = tid then
              { s with status := "completed", updated_at := some t1 }
            else s) } := by
      simp [complete_task, hf]
    refine ⟨by simp [complete_task, hf], ?_, ?_, ?_⟩
    · intro t ht htid
      rw [e1] at ht
      exact mark_completed_mem ht htid
    · rw [e1]
      have hf2 : ((db.tasks.map (fun s =>
          if s.id = tid then
            { s with status := "completed", updated_at := some t1 }
          else s)).find? (·.id == tid)).isSome := by
        rw [find?_id_mark, hf]
        rfl
      obtain ⟨t0', hf2'⟩ := Option.isSome_iff_exists.1 hf2
      constructor
      · simp only [complete_task, hf2', hf]
        refine congrArg (fun ts => { db with tasks := ts }) ?_
        rw [List.map_map]
        apply List.map_congr_left
        intro s _
        by_cases h : s.id = tid <;> simp [Function.comp, h]
      · simp [complete_task, hf2']
    · intro m now t ht htid
      rw [e1] at ht
      have hmem := (List.mem_filter.1 ht).1
      have hpred := (List.mem_filter.1 ht).2
      have hdone : t.status = "completed" := mark_completed_mem hmem htid
      rw [hdone] at hpred
      simp at hpred
  · intro hf
    simp [complete_task, hf]

/-- Concrete database used to witness task completion idempotence. -/
def dbTask : DB :=
  { events := [], users := [], bookings := [], waitlist := [],
    tasks := [{ id := 5, type := "waitlist", object_id := 1,
                messenger := "telegram", scheduled_at := none,
                status := "pending", updated_at := none }],
    nextBookingId := 0, nextWaitlistId := 0, nextTaskId := 6 }

/-- Witness for C6 at a concrete task. -/
theorem complete_task_idempotent_witness :
    (complete_task dbTask 5 "T1").2 = .ok () ∧
    (complete_task (complete_task dbTask 5 "T1").1 5 "T2").1 =
      (complete_task dbTask 5 "T2").1 ∧
    (∀ m now t, t ∈ get_pending_tasks (complete_task dbTask 5 "T1").1 m now →
       t.id ≠ 5) :=
  have h := (complete_task_idempotent dbTask 5 "T1" "T2").1
    { id := 5, type := "waitlist", object_id := 1, messenger := "telegram",
      scheduled_at := none, status := "pending", updated_at := none }
    (by decide)
  ⟨h.1, h.2.2.1.1, h.2.2.2⟩

/-- Concrete database used to exhibit duplicated notify tasks: one event of
capacity 1 and a single waitlist entry. -/
def dbNotify : DB :=
  { events := [{ id := 1, max_participants := 1 }], users := [],
    bookings := [],
    waitlist := [{ id := 1, event_id := 1, user_id := 4, position := 1 }],
    tasks := [],
    nextBookingId := 0, nextWaitlistId := 2, nextTaskId := 0 }

/-- C7.  Two notify rounds over the same waitlist (as caused by two
reservation deletions under the notify policy) insert a second pending
`('waitlist', entry, 'telegram')` task instead of at most one:
`create_waitlist_tasks` inserts unconditionally although its caller's
comment claims it is idempotent. -/
theorem notify_waitlist_duplicates :
    ((notify_waitlist_users (notify_waitlist_users dbNotify 1) 1).tasks.filter
      (fun t => t.type == "waitlist" && t.object_id == 1 &&
                t.messenger == "telegram" && t.status == "pending")).length
      = 2 := by
  decide

/-- Positions of a list of entries form the contiguous range `1..N` with no
duplicates and no gaps. -/
def Contiguous (l : List Nat) : Prop :=
  l.Perm (List.range' 1 l.length)

instance (l : List Nat) : Decidable (Contiguous l) := by
  unfold Contiguous
  infer_instance

/-- Specification of the fold inside `minPosEntry`: the result is drawn from
the list (or is the accumulator) and its position is minimal among the list
elements and the accumulator. -/
theorem minPos_foldl_spec (l : List WaitlistEntry) :
    ∀ (acc : Option WaitlistEntry) (w : WaitlistEntry),
      l.foldl minPosStep acc = some w →
      (w ∈ l ∨ acc = some w) ∧ (∀ x ∈ l, w.position ≤ x.position) ∧
      (∀ m, acc = some m → w.position ≤ m.position) := by
  induction l with
  | nil =>
    intro acc w h
    rw [List.foldl_nil] at h
    refine ⟨Or.inr h, by simp, fun m hm => ?_⟩
    rw [h] at hm
    cases hm
    exact Nat.le_refl _
  | cons x xs ih =>
    intro acc w h
    rw [List.foldl_cons] at h
    obtain ⟨ha, hb, hc⟩ := ih _ w h
    obtain ⟨m', hm'⟩ : ∃ m', minPosStep acc x = some m' := by
      cases acc with
      | none => exact ⟨x, rfl⟩
      | some m0 =>
        simp only [minPosStep]
        split
        · exact ⟨x, rfl⟩
        · exact ⟨m0, rfl⟩
    have hstep : m'.position ≤ x.position ∧
        (∀ m0, acc = some m0 → m'.position ≤ m0.position) := by
      cases acc with
      | none =>
        simp only [minPosStep, Option.some.injEq] at hm'
        subst hm'
        exact ⟨Nat.le_refl _, fun m0 h0 => Option.noConfusion h0⟩
      | some m0 =>
        simp only [minPosStep] at hm'
        by_cases hx : x.position < m0.position
        · rw [if_pos hx] at hm'
          cases hm'
          exact ⟨Nat.le_refl _, fun m1 h1 => by cases h1; omega⟩
        · rw [if_neg hx] at hm'
          cases hm'
          exact ⟨by omega, fun m1 h1 => by cases h1; exact Nat.le_refl _⟩
    have hcm' : w.position ≤ m'.position := hc m' hm'
    refine ⟨?_, ?_, ?_⟩
    · rcases ha with hmem | hacc
      · exact Or.inl (List.mem_cons_of_mem x hmem)
      · cases acc with
        | none =>
          simp only [minPosStep, Option.some.injEq] at hacc
          exact Or.inl (hacc ▸ List.mem_cons_self x xs)
        | some m0 =>
          simp only [minPosStep] at hacc
          by_cases hx : x.position < m0.position
          · rw [if_pos hx] at hacc
            cases hacc
            exact Or.inl (List.mem_cons_self x xs)
          · rw [if_neg hx] at hacc
            exact Or.inr hacc
    · intro y hy
      rcases List.mem_cons.1 hy with rfl | hy'
      · have := hstep.1
        omega
      · exact hb y hy'
    · intro m hm
      have := hstep.2 m hm
      omega

/-- `minPosEntry` returns a waitlist row of the event with minimal
position. -/
theorem minPosEntry_spec (db : DB) (event_id : Nat) (w : WaitlistEntry)
    (hw : minPosEntry db event_id = some w) :
    w ∈ eventWaitlist db event_id ∧
    ∀ x ∈ eventWaitlist db event_id, w.position ≤ x.position := by
  obtain ⟨ha, hb, -⟩ := minPos_foldl_spec _ none w hw
  exact ⟨ha.resolve_right (by simp), hb⟩

/-- Concrete database with one free seat and three waitlist entries at
positions 1, 2, 3. -/
def dbPromo : DB :=
  { events := [{ id := 1, max_participants := 2 }], users := [],
    bookings := [{ id := 0, user_id := 9, event_id := 1, group_size := 1,
                   status := "pending", is_paid := false,
                   is_attended := false, group_names := none }],
    waitlist := [{ id := 1, event_id := 1, user_id := 4, position := 1 },
                 { id := 2, event_id := 1, user_id := 5, position := 2 },
                 { id := 3, event_id := 1, user_id := 6, position := 3 }],
    tasks := [],
    nextBookingId := 1, nextWaitlistId := 4, nextTaskId := 0 }

/-- C3 counterexample: after the automatic promotion of the head entry the
remaining entries keep positions `[2, 3]` — they are NOT renumbered to the
contiguous range `1..N-1`. -/
theorem promotion_no_renumbering :
    posList (promote_from_waitlist dbPromo 1) 1 = [2, 3] ∧
    ¬ Contiguous (posList (promote_from_waitlist dbPromo 1) 1) := by
  decide

/-- C3 amended.  Each iteration of the automatic promotion loop pops the
waitlist entry with the smallest position for the event, deletes its row
leaving all remaining entries' positions unchanged (no renumbering, so the
relative order is preserved but a gap is left), and inserts a
`party_size = 1` pending reservation for its holder. -/
theorem promote_step_pops_min (db : DB) (event_id capacity seats : Nat)
    (w : WaitlistEntry) (hs : seats < capacity)
    (hw : minPosEntry db event_id = some w) :
    w ∈ eventWaitlist db event_id ∧
    (∀ x ∈ eventWaitlist db event_id, w.position ≤ x.position) ∧
    promoteLoop db event_id capacity seats =
      promoteLoop
        { db with
            waitlist := db.waitlist.filter (·.id != w.id),
            bookings := db.bookings ++
              [{ id := db.nextBookingId, user_id := w.user_id,
                 event_id := event_id, group_size := 1, status := "pending",
                 is_paid := false, is_attended := false,
                 group_names := none }],
            nextBookingId := db.nextBookingId + 1 }
        event_id capacity (seats + 1) := by
  obtain ⟨hmem, hmin⟩ := minPosEntry_spec db event_id w hw
  refine ⟨hmem, hmin, ?_⟩
  have hf : capacity - seats = (capacity - (seats + 1)) + 1 := by omega
  unfold promoteLoop
  rw [hf]
  simp only [promoteGo, hw]

/-- Witness for the amended C3 at a concrete promotion step. -/
theorem promote_step_pops_min_witness :
    ({ id := 1, event_id := 1, user_id := 4, position := 1 } : WaitlistEntry)
      ∈ eventWaitlist dbPromo 1 ∧
    (∀ x ∈ eventWaitlist dbPromo 1,
      ({ id := 1, event_id := 1, user_id := 4, position := 1 } :
        WaitlistEntry).position ≤ x.position) ∧
    promoteLoop dbPromo 1 2 1 =
      promoteLoop
        { dbPromo with
            waitlist := dbPromo.waitlist.filter (·.id != 1),
            bookings := dbPromo.bookings ++
              [{ id := 1, user_id := 4, event_id := 1, group_size := 1,
                 status := "pending", is_paid := false, is_attended := false,
                 group_names := none }],
            nextBookingId := 2 }
        1 2 2 :=
  promote_step_pops_min dbPromo 1 2 1
    { id := 1, event_id := 1, user_id := 4, position := 1 }
    (by decide) (by decide)

/-- C5.  `confirm_waitlist` semantics: not-found when the entry does not
exist; not-authorized when the supplied identity does not resolve to the
entry's holder; a distinct no-seats error when the booked total has reached
capacity; on success it removes the entry, decrements the positions of the
same event's entries behind it, appends a `party_size = 1` pending booking
for the holder, and marks every `waitlist`-kind task referencing the entry
(all messengers) as completed. -/
theorem confirm_waitlist_spec (db : DB) (entry_id : Nat) (email : String)
    (now : String) :
    (db.waitlist.find? (·.id == entry_id) = none →
      confirm_waitlist db entry_id email now = (db, .error .entryNotFound)) ∧
    (∀ wl, db.waitlist.find? (·.id == entry_id) = some wl →
      findUserByEmail db email ≠ some wl.user_id →
      confirm_waitlist db entry_id email now = (db, .error .notAuthorized)) ∧
    (∀ wl cap, db.waitlist.find? (·.id == entry_id) = some wl →
      findUserByEmail db email = some wl.user_id →
      eventCapacity db wl.event_id = some cap →
      cap ≤ bookedSeats db wl.event_id →
      confirm_waitlist db entry_id email now = (db, .error .noSeats)) ∧
    (∀ wl cap, db.waitlist.find? (·.id == entry_id) = some wl →
      findUserByEmail db email = some wl.user_id →
      eventCapacity db wl.event_id = some cap →
      bookedSeats db wl.event_id < cap →
      ((confirm_waitlist db entry_id email now).2 =
         .ok { id := db.nextBookingId, user_id := wl.user_id,
               event_id := wl.event_id, group_size := 1, status := "pending",
               is_paid := false, is_attended := false,
               group_names := none } ∧
       (confirm_waitlist db entry_id email now).1.bookings =
         db.bookings ++
           [{ id := db.nextBookingId, user_id := wl.user_id,
              event_id := wl.event_id, group_size := 1, status := "pending",
              is_paid := false, is_attended := false,
              group_names := none }] ∧
       (confirm_waitlist db entry_id email now).1.waitlist =
         (db.waitlist.filter (·.id != entry_id)).map (fun w =>
           if w.event_id = wl.event_id ∧ wl.position < w.position then
             { w with position := w.position - 1 }
           else w) ∧
       (confirm_waitlist db entry_id email now).1.tasks =
         db.tasks.map (fun t =>
           if t.type = "waitlist" ∧ t.object_id = entry_id then
             { t with status := "completed", updated_at := some now }
           else t) ∧
       (∀ t ∈ (confirm_waitlist db entry_id email now).1.tasks,
          t.type = "waitlist" → t.object_id = entry_id →
          t.status = "completed"))) := by
  refine ⟨?_, ?_, ?_, ?_⟩
  · intro hf
    simp [confirm_waitlist, hf]
  · intro wl hf hauth
    cases hu : findUserByEmail db email with
    | none => simp [confirm_waitlist, hf, hu]
    | some uid =>
      rw [hu] at hauth
      have : uid ≠ wl.user_id := fun h => hauth (by rw [h])
      simp [confirm_waitlist, hf, hu, this]
  · intro wl cap hf hu hcap hfull
    simp [confirm_waitlist, hf, hu, hcap, hfull]
  · intro wl cap hf hu hcap hfree
    have hns : ¬ cap ≤ bookedSeats db wl.event_id := by omega
    refine ⟨?_, ?_, ?_, ?_, ?_⟩
    · simp [confirm_waitlist, hf, hu, hcap, hns]
    · simp [confirm_waitlist, hf, hu, hcap, hns, complete_waitlist_tasks]
    · simp [confirm_waitlist, hf, hu, hcap, hns, complete_waitlist_tasks]
    · simp [confirm_waitlist, hf, hu, hcap, hns, complete_waitlist_tasks]
    · intro t ht htype hobj
      have ht' : t ∈ db.tasks.map (fun t =>
          if t.type = "waitlist" ∧ t.object_id = entry_id then
            { t with status := "completed", updated_at := some now }
          else t) := by
        simpa [confirm_waitlist, hf, hu, hcap, hns,
               complete_waitlist_tasks] using ht
      obtain ⟨s, hs, rfl⟩ := List.mem_map.1 ht'
      by_cases h : s.type = "waitlist" ∧ s.object_id = entry_id
      · simp [h]
      · rw [if_neg h] at htype hobj ⊢
        exact absurd ⟨htype, hobj⟩ h

/-- Concrete database used to witness `confirm_waitlist`: one free seat,
one waitlist entry, and one outstanding notify task for it. -/
def dbConfirm : DB :=
  { events := [{ id := 1, max_participants := 2 }],
    users := [{ id := 7, email := "u@x" }],
    bookings := [{ id := 0, user_id := 9, event_id := 1, group_size := 1,
                   status := "pending", is_paid := false,
                   is_attended := false, group_names := none }],
    waitlist := [{ id := 3, event_id := 1, user_id := 7, position := 1 }],
    tasks := [{ id := 0, type := "waitlist", object_id := 3,
                messenger := "telegram", scheduled_at := none,
                status := "pending", updated_at := none }],
    nextBookingId := 1, nextWaitlistId := 4, nextTaskId := 1 }

/-- Witness for C5 at a concrete successful confirmation. -/
theorem confirm_waitlist_spec_witness :
    (confirm_waitlist dbConfirm 3 "u@x" "T").2 =
      .ok { id := 1, user_id := 7, event_id := 1, group_size := 1,
            status := "pending", is_paid := false, is_attended := false,
            group_names := none } ∧
    (∀ t ∈ (confirm_waitlist dbConfirm 3 "u@x" "T").1.tasks,
       t.type = "waitlist" → t.object_id = 3 → t.status = "completed") :=
  have h := (confirm_waitlist_spec dbConfirm 3 "u@x" "T").2.2.2
    { id := 3, event_id := 1, user_id := 7, position := 1 } 2
    (by decide) (by decide) (by decide) (by decide)
  ⟨h.1, h.2.2.2.2⟩

/-- Clamp of a requested (possibly non-positive) position into `[1, n]`,
the effect of the two sequential clamps in `update_waitlist_entry`. -/
def clampPos (p : Int) (n : Nat) : Nat :=
  (min (max p 1) (n : Int)).toNat

/-- The two sequential clamps of the source compute `clampPos`. -/
theorem seqClamp_eq (p : Int) (n : Nat) :
    (if (n : Int) < (if p < 1 then 1 else p) then (n : Int)
     else if p < 1 then 1 else p).toNat = clampPos p n := by
  unfold clampPos
  rw [Int.min_def, Int.max_def]
  split_ifs <;> omega

/-- In a waitlist with no duplicate ids, two members with the same id are
the same row. -/
theorem waitlist_id_inj {wl : List WaitlistEntry}
    (hnd : (wl.map (·.id)).Nodup) {a b : WaitlistEntry}
    (ha : a ∈ wl) (hb : b ∈ wl) (hid : a.id = b.id) : a = b :=
  List.inj_on_of_nodup_map hnd ha hb hid

/-- Computation of `update_waitlist_entry` on an existing entry, as a
single map over the waitlist rows. -/
theorem update_waitlist_entry_eq (db : DB) (entry_id : Nat)
    (new_position : Int) (cur : WaitlistEntry)
    (hnd : (db.waitlist.map (·.id)).Nodup)
    (hfind : db.waitlist.find? (·.id == entry_id) = some cur) :
    (update_waitlist_entry db entry_id new_position).2 =
      .ok { cur with
              position :=
                clampPos new_position (eventWaitlist db cur.event_id).length } ∧
    (update_waitlist_entry db entry_id new_position).1.events = db.events ∧
    (update_waitlist_entry db entry_id new_position).1.bookings = db.bookings ∧
    (update_waitlist_entry db entry_id new_position).1.tasks = db.tasks ∧
    (update_waitlist_entry db entry_id new_position).1.waitlist =
      db.waitlist.map (fun w =>
        if w.id = entry_id then
          { w with
              position :=
                clampPos new_position (eventWaitlist db cur.event_id).length }
        else if w.event_id = cur.event_id ∧
            clampPos new_position (eventWaitlist db cur.event_id).length
              ≤ w.position ∧ w.position < cur.position then
          { w with position := w.position + 1 }
        else if w.event_id = cur.event_id ∧ cur.position < w.position ∧
            w.position ≤
              clampPos new_position (eventWaitlist db cur.event_id).length then
          { w with position := w.position - 1 }
        else w) := by
  have hcmem : cur ∈ db.waitlist := List.mem_of_find?_eq_some hfind
  have hcid : cur.id = entry_id := by
    have := List.find?_some hfind
    simpa using this
  simp only [update_waitlist_entry, hfind, seqClamp_eq]
  refine ⟨trivial, trivial, trivial, trivial, ?_⟩
  set c := clampPos new_position (eventWaitlist db cur.event_id).length with hc
  rcases Nat.lt_trichotomy c cur.position with hlt | heq | hgt
  · rw [if_pos hlt, List.map_map]
    apply List.map_congr_left
    intro w hw
    simp only [Function.comp_apply]
    by_cases hid : w.id = entry_id
    · have hwcur : w = cur :=
        waitlist_id_inj hnd hw hcmem (hid.trans hcid.symm)
      have hni : ¬(w.event_id = cur.event_id ∧ c ≤ w.position ∧
          w.position < cur.position) := by
        rw [hwcur]
        omega
      simp [hni, hid]
    · by_cases hc2 : w.event_id = cur.event_id ∧ c ≤ w.position ∧
          w.position < cur.position
      · simp [hc2, hid]
      · have hn3 : ¬(w.event_id = cur.event_id ∧ cur.position < w.position ∧
            w.position ≤ c) := by omega
        simp [hc2, hid, hn3]
  · have h1 : ¬(c < cur.position) := by omega
    have h2 : ¬(cur.position < c) := by omega
    rw [if_neg h1, if_neg h2]
    apply List.map_congr_left
    intro w hw
    by_cases hid : w.id = entry_id
    · simp [hid]
    · have hn2 : ¬(w.event_id = cur.event_id ∧ c ≤ w.position ∧
          w.position < cur.position) := by omega
      have hn3 : ¬(w.event_id = cur.event_id ∧ cur.position < w.position ∧
          w.position ≤ c) := by omega
      simp [hid, hn2, hn3]
  · have h1 : ¬(c < cur.position) := by omega
    rw [if_neg h1, if_pos hgt, List.map_map]
    apply List.map_congr_left
    intro w hw
    simp only [Function.comp_apply]
    by_cases hid : w.id = entry_id
    · have hwcur : w = cur :=
        waitlist_id_inj hnd hw hcmem (hid.trans hcid.symm)
      have hni : ¬(w.event_id = cur.event_id ∧ cur.position < w.position ∧
          w.position ≤ c) := by
        rw [hwcur]
        omega
      have hn2 : ¬(w.event_id = cur.event_id ∧ c ≤ w.position ∧
          w.position < cur.position) := by
        rw [hwcur]
        omega
      simp [hni, hn2, hid]
    · by_cases hc3 : w.event_id = cur.event_id ∧ cur.position < w.position ∧
          w.position ≤ c
      · have hn2 : ¬(w.event_id = cur.event_id ∧ c ≤ w.position ∧
            w.position < cur.position) := by omega
        have hn2' : ¬(c ≤ w.position ∧ w.position < cur.position) := by omega
        simp [hc3, hid, hn2, hn2']
      · have hn2 : ¬(w.event_id = cur.event_id ∧ c ≤ w.position ∧
            w.position < cur.position) := by omega
        simp [hc3, hid, hn2]

/-- C8.  `update_waitlist_entry` on an existing entry: the requested
position is clamped to `[1, count]`; every other entry of the same event
lying between the old and the new position is shifted by one (incremented
when the target moves to a smaller position, decremented when it moves to a
larger one); the target's position is set to the clamped value; nothing
else changes. -/
theorem update_waitlist_entry_spec (db : DB) (entry_id : Nat)
    (new_position : Int) (cur : WaitlistEntry)
    (hnd : (db.waitlist.map (·.id)).Nodup)
    (hfind : db.waitlist.find? (·.id == entry_id) = some cur) :
    (update_waitlist_entry db entry_id new_position).2 =
      .ok { cur with
              position :=
                clampPos new_position (eventWaitlist db cur.event_id).length } ∧
    (update_waitlist_entry db entry_id new_position).1.events = db.events ∧
    (update_waitlist_entry db entry_id new_position).1.bookings = db.bookings ∧
    (update_waitlist_entry db entry_id new_position).1.tasks = db.tasks ∧
    (update_waitlist_entry db entry_id new_position).1.waitlist =
      db.waitlist.map (fun w =>
        if w.id = entry_id then
          { w with
              position :=
                clampPos new_position (eventWaitlist db cur.event_id).length }
        else if w.event_id = cur.event_id ∧
            clampPos new_position (eventWaitlist db cur.event_id).length
              ≤ w.position ∧ w.position < cur.position then
          { w with position := w.position + 1 }
        else if w.event_id = cur.event_id ∧ cur.position < w.position ∧
            w.position ≤
              clampPos new_position (eventWaitlist db cur.event_id).length then
          { w with position := w.position - 1 }
        else w) :=
  update_waitlist_entry_eq db entry_id new_position cur hnd hfind

/-- Witness for C8: repositioning entry 3 (position 3) to the requested
position `-5` clamps to 1 and shifts the two entries in front up by one. -/
theorem update_waitlist_entry_spec_witness :
    (update_waitlist_entry dbPromo 3 (-5)).2 =
      .ok { id := 3, event_id := 1, user_id := 6, position := 1 } ∧
    (update_waitlist_entry dbPromo 3 (-5)).1.waitlist =
      [{ id := 1, event_id := 1, user_id := 4, position := 2 },
       { id := 2, event_id := 1, user_id := 5, position := 3 },
       { id := 3, event_id := 1, user_id := 6, position := 1 }] := by
  have h := update_waitlist_entry_spec dbPromo 3 (-5)
    { id := 3, event_id := 1, user_id := 6, position := 3 }
    (by decide) (by decide)
  refine ⟨?_, ?_⟩
  · rw [h.1]
    rfl
  · rw [h.2.2.2.2]
    rfl

/-!
### Contiguity invariant machinery (C4): positions form `1..N`
-/

/-- Every member is bounded by the fold of `max`. -/
theorem le_foldr_max {l : List Nat} {x : Nat} (hx : x ∈ l) :
    x ≤ l.foldr max 0 := by
  induction l with
  | nil => cases hx
  | cons a as ih =>
    rw [List.foldr_cons]
    rcases List.mem_cons.1 hx with rfl | h
    · exact Nat.le_max_left _ _
    · exact Nat.le_trans (ih h) (Nat.le_max_right _ _)

/-- The fold of `max` is bounded by any upper bound of the members. -/
theorem foldr_max_le {l : List Nat} {B : Nat} (h : ∀ x ∈ l, x ≤ B) :
    l.foldr max 0 ≤ B := by
  induction l with
  | nil => exact Nat.zero_le _
  | cons a as ih =>
    rw [List.foldr_cons]
    exact Nat.max_le.2 ⟨h a (List.mem_cons_self a as),
      ih (fun x hx => h x (List.mem_cons_of_mem a hx))⟩

/-- Membership in a contiguous position list is exactly `1..N`. -/
theorem Contiguous.mem_iff {l : List Nat} (h : Contiguous l) {k : Nat} :
    k ∈ l ↔ 1 ≤ k ∧ k ≤ l.length := by
  rw [List.Perm.mem_iff h, List.mem_range'_1]
  omega

/-- In a contiguous position list the maximum is the length. -/
theorem Contiguous.max_eq_length {l : List Nat} (h : Contiguous l) :
    l.foldr max 0 = l.length := by
  rcases Nat.eq_zero_or_pos l.length with h0 | hpos
  · rw [List.length_eq_zero.1 h0]
    rfl
  · apply Nat.le_antisymm
    · exact foldr_max_le (fun x hx => (h.mem_iff.1 hx).2)
    · exact le_foldr_max (h.mem_iff.2 ⟨hpos, Nat.le_refl _⟩)

/-- Contiguity transfers along a permutation. -/
theorem contiguous_of_perm {l l' : List Nat} (h : Contiguous l)
    (hp : l'.Perm l) : Contiguous l' := by
  unfold Contiguous at *
  rw [hp.length_eq]
  exact hp.trans h

/-- Appending `max + 1` preserves contiguity. -/
theorem contiguous_append_max {l : List Nat} (h : Contiguous l) :
    Contiguous (l ++ [l.foldr max 0 + 1]) := by
  unfold Contiguous
  rw [List.length_append, h.max_eq_length]
  simp only [List.length_singleton]
  have hr : List.range' 1 (l.length + 1) =
      List.range' 1 l.length ++ [1 + l.length] := List.range'_1_concat 1 l.length
  rw [hr, Nat.add_comm 1 l.length]
  exact List.Perm.append_right _ h

/-- Split a `range'` at an interior point. -/
theorem range'_split (s m k : Nat) (h : k ≤ m) :
    List.range' s m = List.range' s k ++ List.range' (s + k) (m - k) := by
  have hr := List.range'_append_1 s k (m - k)
  rw [show m - k + k = m from by omega] at hr
  exact hr.symm

/-- Erasing `p` from `1..N` and decrementing everything above `p` yields
`1..N-1` (the compaction step of a removal). -/
theorem range'_erase_dec (p N : Nat) (h1 : 1 ≤ p) (h2 : p ≤ N) :
    ((List.range' 1 N).erase p).map (fun q => if p < q then q - 1 else q) =
      List.range' 1 (N - 1) := by
  rw [List.erase_range']
  rw [show min N (p - 1) = p - 1 from by omega,
      show max 1 (p + 1) = p + 1 from by omega,
      show min 1 (p + 1) + N - (p + 1) = N - p from by omega]
  rw [List.map_append]
  have b1 : (List.range' 1 (p - 1)).map (fun q => if p < q then q - 1 else q) =
      List.range' 1 (p - 1) := by
    have e : ∀ q ∈ List.range' 1 (p - 1),
        (if p < q then q - 1 else q) = q := by
      intro q hq
      rw [List.mem_range'_1] at hq
      rw [if_neg (by omega)]
    rw [List.map_congr_left e, List.map_id']
  have b2 : (List.range' (p + 1) (N - p)).map
      (fun q => if p < q then q - 1 else q) = List.range' p (N - p) := by
    have e : ∀ q ∈ List.range' (p + 1) (N - p),
        (if p < q then q - 1 else q) = q - 1 := by
      intro q hq
      rw [List.mem_range'_1] at hq
      rw [if_pos (by omega)]
    rw [List.map_congr_left e]
    have hs := @List.map_sub_range' 1 1 (p + 1) (N - p) (by omega)
    rw [show p + 1 - 1 = p from by omega] at hs
    exact hs
  rw [b1, b2]
  have hj := List.range'_append_1 1 (p - 1) (N - p)
  rw [show 1 + (p - 1) = p from by omega,
      show N - p + (p - 1) = N - 1 from by omega] at hj
  exact hj

/-- Moving the target from position `p` down to `c < p`: consing `c` onto
the erased range with the in-between block incremented is a permutation of
`1..N`. -/
theorem range'_erase_map_up (c p N : Nat) (hc1 : 1 ≤ c) (hcp : c < p)
    (hpN : p ≤ N) :
    (c :: ((List.range' 1 N).erase p).map
      (fun q => if c ≤ q ∧ q < p then q + 1 else q)).Perm
      (List.range' 1 N) := by
  rw [List.erase_range']
  rw [show min N (p - 1) = p - 1 from by omega,
      show max 1 (p + 1) = p + 1 from by omega,
      show min 1 (p + 1) + N - (p + 1) = N - p from by omega]
  rw [range'_split 1 (p - 1) (c - 1) (by omega),
      show 1 + (c - 1) = c from by omega,
      show p - 1 - (c - 1) = p - c from by omega]
  rw [List.map_append, List.map_append]
  have b1 : (List.range' 1 (c - 1)).map
      (fun q => if c ≤ q ∧ q < p then q + 1 else q) =
      List.range' 1 (c - 1) := by
    have e : ∀ q ∈ List.range' 1 (c - 1),
        (if c ≤ q ∧ q < p then q + 1 else q) = q := by
      intro q hq
      rw [List.mem_range'_1] at hq
      rw [if_neg (by omega)]
    rw [List.map_congr_left e, List.map_id']
  have b2 : (List.range' c (p - c)).map
      (fun q => if c ≤ q ∧ q < p then q + 1 else q) =
      List.range' (c + 1) (p - c) := by
    have e : ∀ q ∈ List.range' c (p - c),
        (if c ≤ q ∧ q < p then q + 1 else q) = 1 + q := by
      intro q hq
      rw [List.mem_range'_1] at hq
      rw [if_pos (by omega)]
      omega
    rw [List.map_congr_left e]
    have ha := List.map_add_range' 1 c (p - c) 1
    rw [show 1 + c = c + 1 from by omega] at ha
    exact ha
  have b3 : (List.range' (p + 1) (N - p)).map
      (fun q => if c ≤ q ∧ q < p then q + 1 else q) =
      List.range' (p + 1) (N - p) := by
    have e : ∀ q ∈ List.range' (p + 1) (N - p),
        (if c ≤ q ∧ q < p then q + 1 else q) = q := by
      intro q hq
      rw [List.mem_range'_1] at hq
      rw [if_neg (by omega)]
    rw [List.map_congr_left e, List.map_id']
  rw [b1, b2, b3]
  have hN : List.range' 1 N = List.range' 1 (c - 1) ++
      c :: (List.range' (c + 1) (p - c) ++ List.range' (p + 1) (N - p)) := by
    rw [range'_split 1 N (c - 1) (by omega),
        show 1 + (c - 1) = c from by omega,
        show N - (c - 1) = (N - c) + 1 from by omega,
        List.range'_succ,
        range'_split (c + 1) (N - c) (p - c) (by omega),
        show c + 1 + (p - c) = p + 1 from by omega,
        show N - c - (p - c) = N - p from by omega]
  rw [hN, List.append_assoc]
  exact List.perm_middle.symm

/-- Moving the target from position `p` up to `c > p`: consing `c` onto the
erased range with the in-between block decremented is a permutation of
`1..N`. -/
theorem range'_erase_map_down (c p N : Nat) (hp1 : 1 ≤ p) (hpc : p < c)
    (hcN : c ≤ N) :
    (c :: ((List.range' 1 N).erase p).map
      (fun q => if p < q ∧ q ≤ c then q - 1 else q)).Perm
      (List.range' 1 N) := by
  rw [List.erase_range']
  rw [show min N (p - 1) = p - 1 from by omega,
      show max 1 (p + 1) = p + 1 from by omega,
      show min 1 (p + 1) + N - (p + 1) = N - p from by omega]
  rw [range'_split (p + 1) (N - p) (c - p) (by omega),
      show p + 1 + (c - p) = c + 1 from by omega,
      show N - p - (c - p) = N - c from by omega]
  rw [List.map_append, List.map_append]
  have b1 : (List.range' 1 (p - 1)).map
      (fun q => if p < q ∧ q ≤ c then q - 1 else q) =
      List.range' 1 (p - 1) := by
    have e : ∀ q ∈ List.range' 1 (p - 1),
        (if p < q ∧ q ≤ c then q - 1 else q) = q := by
      intro q hq
      rw [List.mem_range'_1] at hq
      rw [if_neg (by omega)]
    rw [List.map_congr_left e, List.map_id']
  have b2 : (List.range' (p + 1) (c - p)).map
      (fun q => if p < q ∧ q ≤ c then q - 1 else q) =
      List.range' p (c - p) := by
    have e : ∀ q ∈ List.range' (p + 1) (c - p),
        (if p < q ∧ q ≤ c then q - 1 else q) = q - 1 := by
      intro q hq
      rw [List.mem_range'_1] at hq
      rw [if_pos (by omega)]
    rw [List.map_congr_left e]
    have hs := @List.map_sub_range' 1 1 (p + 1) (c - p) (by omega)
    rw [show p + 1 - 1 = p from by omega] at hs
    exact hs
  have b3 : (List.range' (c + 1) (N - c)).map
      (fun q => if p < q ∧ q ≤ c then q - 1 else q) =
      List.range' (c + 1) (N - c) := by
    have e : ∀ q ∈ List.range' (c + 1) (N - c),
        (if p < q ∧ q ≤ c then q - 1 else q) = q := by
      intro q hq
      rw [List.mem_range'_1] at hq
      rw [if_neg (by omega)]
    rw [List.map_congr_left e, List.map_id']
  rw [b1, b2, b3]
  have hj := List.range'_append_1 1 (p - 1) (c - p)
  rw [show 1 + (p - 1) = p from by omega,
      show c - p + (p - 1) = c - 1 from by omega] at hj
  rw [← List.append_assoc, hj]
  have hN : List.range' 1 N = List.range' 1 (c - 1) ++
      c :: List.range' (c + 1) (N - c) := by
    rw [range'_split 1 N (c - 1) (by omega),
        show 1 + (c - 1) = c from by omega,
        show N - (c - 1) = (N - c) + 1 from by omega,
        List.range'_succ]
  rw [hN]
  exact List.perm_middle.symm

/-- A row map preserving `event_id` commutes with the per-event filter. -/
theorem filter_event_map (l : List WaitlistEntry)
    (f : WaitlistEntry → WaitlistEntry) (E : Nat)
    (hf : ∀ w, (f w).event_id = w.event_id) :
    (l.map f).filter (·.event_id == E) = (l.filter (·.event_id == E)).map f := by
  rw [List.filter_map]
  congr 1
  apply List.filter_congr
  intro w _
  simp [Function.comp, hf w]

/-- A row map preserving `id` does not change the id column. -/
theorem ids_map_eq (l : List WaitlistEntry) (f : WaitlistEntry → WaitlistEntry)
    (hf : ∀ w, (f w).id = w.id) : (l.map f).map (·.id) = l.map (·.id) := by
  rw [List.map_map]
  apply List.map_congr_left
  intro w _
  simp [Function.comp, hf w]

/-- Per-event filter of a list against filtering its `erase`: the removed
row leads the rest. -/
theorem filter_erase_rest (wl : List WaitlistEntry) (cur : WaitlistEntry)
    (hmem : cur ∈ wl) :
    (wl.filter (·.event_id == cur.event_id)).Perm
      (cur :: (wl.erase cur).filter (·.event_id == cur.event_id)) := by
  have hp := (List.perm_cons_erase hmem).filter (·.event_id == cur.event_id)
  rwa [List.filter_cons_of_pos (by simp)] at hp

/-- Erasing a row of another event does not change a per-event filter (up
to permutation). -/
theorem filter_erase_other (wl : List WaitlistEntry) (cur : WaitlistEntry)
    (hmem : cur ∈ wl) (E : Nat) (hne : E ≠ cur.event_id) :
    (wl.filter (·.event_id == E)).Perm
      ((wl.erase cur).filter (·.event_id == E)) := by
  have hp := (List.perm_cons_erase hmem).filter (·.event_id == E)
  rwa [List.filter_cons_of_neg
    (by simp [beq_iff_eq]; exact fun h' => hne h'.symm)] at hp

/-- After a row map, the per-event position column is the mapped position
column, provided the map preserves `event_id` and acts on positions of this
event's rows through `g`. -/
theorem posOf_map_shift (l : List WaitlistEntry) (E : Nat)
    (f : WaitlistEntry → WaitlistEntry) (g : Nat → Nat)
    (hf : ∀ w, (f w).event_id = w.event_id)
    (hfg : ∀ w ∈ l, w.event_id = E → (f w).position = g w.position) :
    posOf (l.map f) E = (posOf l E).map g := by
  unfold posOf
  rw [filter_event_map l f E hf, List.map_map, List.map_map]
  apply List.map_congr_left
  intro w hw
  have hwE : w.event_id = E := by simpa using (List.mem_filter.1 hw).2
  simp [Function.comp, hfg w (List.mem_of_mem_filter hw) hwE]

/-- The compaction core: removing a row of event `E` at position `p` from a
contiguous waitlist leaves a position column that is a permutation of
`(1..N).erase p` (and `p` lies in `1..N`). -/
theorem rest_perm_erase (wl : List WaitlistEntry) (cur : WaitlistEntry)
    (hmem : cur ∈ wl)
    (hcont : Contiguous (posOf wl cur.event_id)) :
    cur.position ∈ List.range' 1 (posOf wl cur.event_id).length ∧
    (posOf (wl.erase cur) cur.event_id).Perm
      ((List.range' 1 (posOf wl cur.event_id).length).erase cur.position) := by
  have h1 : (posOf wl cur.event_id).Perm
      (cur.position :: posOf (wl.erase cur) cur.event_id) := by
    unfold posOf
    exact (filter_erase_rest wl cur hmem).map (·.position)
  have hchain :
      (cur.position :: posOf (wl.erase cur) cur.event_id).Perm
        (List.range' 1 (posOf wl cur.event_id).length) :=
    h1.symm.trans hcont
  have hpmem : cur.position ∈ List.range' 1 (posOf wl cur.event_id).length :=
    hchain.mem_iff.1 (List.mem_cons_self _ _)
  exact ⟨hpmem, (hchain.trans (List.perm_cons_erase hpmem)).cons_inv⟩

/-- The state invariant maintained by the waitlist operations: unique row
ids below the id counter, and a contiguous `1..N` position column for every
event. -/
structure WInv (db : DB) : Prop where
  nodupIds : (db.waitlist.map (·.id)).Nodup
  idsLt : ∀ w ∈ db.waitlist, w.id < db.nextWaitlistId
  contig : ∀ eid, Contiguous (posList db eid)

/-- `create_booking` preserves the waitlist invariant (in the overflow
branch it appends at `MAX(position) + 1`). -/
theorem winv_create (db : DB) (e : Nat) (m : String) (g : Nat)
    (n : Option (List String)) (h : WInv db) :
    WInv (create_booking db e m g n).1 := by
  cases hu : findUserByEmail db m with
  | none =>
    have e1 : (create_booking db e m g n).1 = db := by
      simp [create_booking, hu]
    rw [e1]
    exact h
  | some uid =>
    cases he : eventCapacity db e with
    | none =>
      have e1 : (create_booking db e m g n).1 = db := by
        simp [create_booking, hu, he]
      rw [e1]
      exact h
    | some cap =>
      by_cases hadm : bookedSeats db e + g ≤ cap
      · have e1 : (create_booking db e m g n).1 =
            { db with
                bookings := db.bookings ++
                  [{ id := db.nextBookingId, user_id := uid, event_id := e,
                     group_size := g, status := "pending", is_paid := false,
                     is_attended := false, group_names := normNames n }],
                nextBookingId := db.nextBookingId + 1 } := by
          simp [create_booking, hu, he, hadm]
        rw [e1]
        exact ⟨h.nodupIds, h.idsLt, h.contig⟩
      · have e1 : (create_booking db e m g n).1 =
            { db with
                waitlist := db.waitlist ++
                  [{ id := db.nextWaitlistId, event_id := e, user_id := uid,
                     position := maxWaitlistPos db e + 1 }],
                nextWaitlistId := db.nextWaitlistId + 1 } := by
          simp [create_booking, hu, he, hadm]
        rw [e1]
        constructor
        · rw [List.map_append, List.nodup_append]
          refine ⟨h.nodupIds, List.nodup_singleton _, ?_⟩
          intro a ha hb
          obtain ⟨w, hw, rfl⟩ := List.mem_map.1 ha
          have hlt := h.idsLt w hw
          simp at hb
          omega
        · intro w hw
          rcases List.mem_append.1 hw with hw1 | hw2
          · exact Nat.lt_trans (h.idsLt w hw1) (Nat.lt_succ_self _)
          · simp at hw2
            rw [hw2]
            exact Nat.lt_succ_self _
        · intro eid
          show Contiguous (posOf _ eid)
          unfold posOf
          rw [List.filter_append]
          by_cases heid : e = eid
          · subst heid
            rw [List.filter_cons_of_pos (by simp), List.filter_nil,
                List.map_append]
            exact contiguous_append_max (h.contig e)
          · rw [List.filter_cons_of_neg (by simp [beq_iff_eq]; exact heid),
                List.filter_nil, List.append_nil]
            exact h.contig eid

/-- `delete_waitlist_entry` preserves the waitlist invariant: the removal
compacts the positions behind the removed row. -/
theorem winv_delete (db : DB) (entry_id : Nat) (h : WInv db) :
    WInv (delete_waitlist_entry db entry_id).1 := by
  cases hf : db.waitlist.find? (·.id == entry_id) with
  | none =>
    have e1 : (delete_waitlist_entry db entry_id).1 = db := by
      simp [delete_waitlist_entry, hf]
    rw [e1]
    exact h
  | some cur =>
    have hcmem := List.mem_of_find?_eq_some hf
    have hcid : cur.id = entry_id := by simpa using List.find?_some hf
    have hwnd : db.waitlist.Nodup := List.Nodup.of_map _ h.nodupIds
    have hfilter : db.waitlist.filter (·.id != entry_id) =
        db.waitlist.erase cur := by
      rw [List.Nodup.erase_eq_filter hwnd]
      apply List.filter_congr
      intro w hw
      by_cases hweq : w = cur
      · subst hweq
        simp [hcid]
      · have hne : w.id ≠ entry_id := fun he' =>
          hweq (waitlist_id_inj h.nodupIds hw hcmem (he'.trans hcid.symm))
        have l1 : (w.id != entry_id) = true := by simp [hne]
        have l2 : (w != cur) = true := by simp [hweq]
        rw [l1, l2]
    have hgid : ∀ t : WaitlistEntry,
        ((if t.event_id = cur.event_id ∧ cur.position < t.position then
            { t with position := t.position - 1 } else t) :
          WaitlistEntry).id = t.id := by
      intro t
      split <;> rfl
    have hgev : ∀ t : WaitlistEntry,
        ((if t.event_id = cur.event_id ∧ cur.position < t.position then
            { t with position := t.position - 1 } else t) :
          WaitlistEntry).event_id = t.event_id := by
      intro t
      split <;> rfl
    have e1 : (delete_waitlist_entry db entry_id).1 =
        { db with
            waitlist := (db.waitlist.erase cur).map (fun w =>
              if w.event_id = cur.event_id ∧ cur.position < w.position then
                { w with position := w.position - 1 }
              else w) } := by
      simp [delete_waitlist_entry, hf, hfilter]
    rw [e1]
    constructor
    · rw [ids_map_eq _ _ hgid]
      exact List.Nodup.sublist ((List.erase_sublist cur db.waitlist).map _)
        h.nodupIds
    · intro w hw
      obtain ⟨s, hs, rfl⟩ := List.mem_map.1 hw
      simp only [hgid]
      exact h.idsLt s (List.mem_of_mem_erase hs)
    · intro eid
      show Contiguous (posOf _ eid)
      by_cases heid : eid = cur.event_id
      · subst heid
        obtain ⟨hpmem, hrest⟩ :=
          rest_perm_erase db.waitlist cur hcmem (h.contig cur.event_id)
        rw [posOf_map_shift _ _ _
          (fun q => if cur.position < q then q - 1 else q) hgev
          (by
            intro w _ hwE
            by_cases hlt : cur.position < w.position
            · simp [hwE, hlt]
            · simp [hwE, hlt])]
        have hb := List.mem_range'_1.1 hpmem
        have hperm2 : ((posOf (db.waitlist.erase cur) cur.event_id).map
            (fun q => if cur.position < q then q - 1 else q)).Perm
            (List.range' 1 ((posOf db.waitlist cur.event_id).length - 1)) := by
          have := hrest.map (fun q => if cur.position < q then q - 1 else q)
          rwa [range'_erase_dec cur.position
            (posOf db.waitlist cur.event_id).length (by omega) (by omega)]
            at this
        unfold Contiguous
        rw [List.length_map, hrest.length_eq,
            List.length_erase_of_mem hpmem, List.length_range']
        exact hperm2
      · rw [posOf_map_shift _ _ _ (fun q => q) hgev
          (by
            intro w _ hwE
            rw [if_neg (fun hc => heid ((hwE.symm).trans hc.1))])]
        rw [List.map_id']
        exact contiguous_of_perm (h.contig eid)
          ((filter_erase_other db.waitlist cur hcmem eid heid).map _).symm

/-- The per-row effect of a reposition to clamped position `c` (target row
`entry_id`, event `E`, old position `p`). -/
def repositionRow (entry_id c E p : Nat) (w : WaitlistEntry) : WaitlistEntry :=
  if w.id = entry_id then { w with position := c }
  else if w.event_id = E ∧ c ≤ w.position ∧ w.position < p then
    { w with position := w.position + 1 }
  else if w.event_id = E ∧ p < w.position ∧ w.position ≤ c then
    { w with position := w.position - 1 }
  else w

/-- The per-position effect of a reposition on the other rows of the
event. -/
def shiftPos (c p q : Nat) : Nat :=
  if c ≤ q ∧ q < p then q + 1 else if p < q ∧ q ≤ c then q - 1 else q

theorem repositionRow_id (entry_id c E p : Nat) (w : WaitlistEntry) :
    (repositionRow entry_id c E p w).id = w.id := by
  unfold repositionRow
  split
  · rfl
  · split
    · rfl
    · split
      · rfl
      · rfl

theorem repositionRow_event (entry_id c E p : Nat) (w : WaitlistEntry) :
    (repositionRow entry_id c E p w).event_id = w.event_id := by
  unfold repositionRow
  split
  · rfl
  · split
    · rfl
    · split
      · rfl
      · rfl

/-- Repositioning an existing row to a clamped position `c ∈ [1, N]`
preserves the contiguity of every event's position column. -/
theorem contig_reposition (wl : List WaitlistEntry) (cur : WaitlistEntry)
    (entry_id c : Nat)
    (hnd : (wl.map (·.id)).Nodup) (hmem : cur ∈ wl) (hcid : cur.id = entry_id)
    (hc1 : 1 ≤ c) (hc2 : c ≤ (posOf wl cur.event_id).length)
    (hcont : ∀ eid, Contiguous (posOf wl eid)) :
    ∀ eid, Contiguous
      (posOf (wl.map (repositionRow entry_id c cur.event_id cur.position))
        eid) := by
  intro eid
  have hwnd : wl.Nodup := List.Nodup.of_map _ hnd
  by_cases heid : eid = cur.event_id
  · subst heid
    obtain ⟨hpmem, hrest⟩ := rest_perm_erase wl cur hmem (hcont cur.event_id)
    have hb := List.mem_range'_1.1 hpmem
    have hstep2 :
        (posOf (wl.map (repositionRow entry_id c cur.event_id cur.position))
          cur.event_id).Perm
        ((repositionRow entry_id c cur.event_id cur.position cur).position ::
          (((wl.erase cur).filter (·.event_id == cur.event_id)).map
            (repositionRow entry_id c cur.event_id cur.position)).map
              (·.position)) := by
      unfold posOf
      rw [filter_event_map _ _ _
        (repositionRow_event entry_id c cur.event_id cur.position)]
      simpa using ((filter_erase_rest wl cur hmem).map
        (repositionRow entry_id c cur.event_id cur.position)).map (·.position)
    have hgcur :
        (repositionRow entry_id c cur.event_id cur.position cur).position =
          c := by
      simp [repositionRow, hcid]
    have hstep3 : (((wl.erase cur).filter (·.event_id == cur.event_id)).map
        (repositionRow entry_id c cur.event_id cur.position)).map
          (·.position) =
        (posOf (wl.erase cur) cur.event_id).map (shiftPos c cur.position) := by
      unfold posOf
      rw [List.map_map, List.map_map]
      apply List.map_congr_left
      intro w hw
      have hwE : w.event_id = cur.event_id := by
        simpa using (List.mem_filter.1 hw).2
      have hwer : w ∈ wl.erase cur := List.mem_of_mem_filter hw
      have hwne : w ≠ cur := ((List.Nodup.mem_erase_iff hwnd).1 hwer).1
      have hwmem : w ∈ wl := List.mem_of_mem_erase hwer
      have hnid : ¬(w.id = entry_id) := fun hid =>
        hwne (waitlist_id_inj hnd hwmem hmem (hid.trans hcid.symm))
      simp only [Function.comp, repositionRow, shiftPos]
      rw [if_neg hnid]
      by_cases h2 : c ≤ w.position ∧ w.position < cur.position
      · rw [if_pos ⟨hwE, h2.1, h2.2⟩, if_pos h2]
      · rw [if_neg (fun hcnd => h2 ⟨hcnd.2.1, hcnd.2.2⟩), if_neg h2]
        by_cases h3 : cur.position < w.position ∧ w.position ≤ c
        · rw [if_pos ⟨hwE, h3.1, h3.2⟩, if_pos h3]
        · rw [if_neg (fun hcnd => h3 ⟨hcnd.2.1, hcnd.2.2⟩), if_neg h3]
    rw [hgcur, hstep3] at hstep2
    have hrest' : ((posOf (wl.erase cur) cur.event_id).map
        (shiftPos c cur.position)).Perm
        (((List.range' 1 (posOf wl cur.event_id).length).erase
          cur.position).map (shiftPos c cur.position)) :=
      hrest.map _
    have hfull :
        (posOf (wl.map (repositionRow entry_id c cur.event_id cur.position))
          cur.event_id).Perm
        (List.range' 1 (posOf wl cur.event_id).length) := by
      refine hstep2.trans ?_
      refine (List.Perm.cons c hrest').trans ?_
      rcases Nat.lt_trichotomy c cur.position with hlt | heqc | hgt
      · have hfeq : ∀ q, shiftPos c cur.position q =
            (if c ≤ q ∧ q < cur.position then q + 1 else q) := by
          intro q
          unfold shiftPos
          by_cases h1 : c ≤ q ∧ q < cur.position
          · rw [if_pos h1, if_pos h1]
          · rw [if_neg h1, if_neg h1, if_neg (by omega)]
        have hmapeq : (((List.range' 1
            (posOf wl cur.event_id).length).erase cur.position).map
              (shiftPos c cur.position)) =
            (((List.range' 1 (posOf wl cur.event_id).length).erase
              cur.position).map
                (fun q => if c ≤ q ∧ q < cur.position then q + 1 else q)) :=
          List.map_congr_left (fun q _ => hfeq q)
        rw [hmapeq]
        exact range'_erase_map_up c cur.position _ hc1 hlt (by omega)
      · have hptw : ∀ q ∈ (List.range' 1
            (posOf wl cur.event_id).length).erase cur.position,
            shiftPos c cur.position q = q := by
          intro q hq
          have hq' := (List.Nodup.mem_erase_iff
            (List.nodup_range' 1 (posOf wl cur.event_id).length)).1 hq
          unfold shiftPos
          rw [if_neg (by omega), if_neg (by omega)]
        rw [List.map_congr_left hptw, List.map_id', heqc]
        exact (List.perm_cons_erase hpmem).symm
      · have hfeq : ∀ q, shiftPos c cur.position q =
            (if cur.position < q ∧ q ≤ c then q - 1 else q) := by
          intro q
          unfold shiftPos
          rw [if_neg (by omega)]
        have hmapeq : (((List.range' 1
            (posOf wl cur.event_id).length).erase cur.position).map
              (shiftPos c cur.position)) =
            (((List.range' 1 (posOf wl cur.event_id).length).erase
              cur.position).map
                (fun q => if cur.position < q ∧ q ≤ c then q - 1 else q)) :=
          List.map_congr_left (fun q _ => hfeq q)
        rw [hmapeq]
        exact range'_erase_map_down c cur.position _ (by omega) hgt hc2
    unfold Contiguous
    rw [hfull.length_eq, List.length_range']
    exact hfull
  · have hfg : ∀ w ∈ wl, w.event_id = eid →
        (repositionRow entry_id c cur.event_id cur.position w).position =
          w.position := by
      intro w hwmem hwE
      have hnid : ¬(w.id = entry_id) := fun hid => by
        have hwc : w = cur := waitlist_id_inj hnd hwmem hmem
          (hid.trans hcid.symm)
        rw [hwc] at hwE
        exact heid hwE.symm
      unfold repositionRow
      rw [if_neg hnid,
          if_neg (fun hcnd => heid (hwE.symm.trans hcnd.1)),
          if_neg (fun hcnd => heid (hwE.symm.trans hcnd.1))]
    rw [posOf_map_shift _ _ _ (fun q => q)
      (repositionRow_event entry_id c cur.event_id cur.position) hfg,
      List.map_id']
    exact hcont eid

/-- `update_waitlist_entry` never changes the waitlist id counter. -/
theorem update_waitlist_entry_next (db : DB) (entry_id : Nat) (np : Int) :
    (update_waitlist_entry db entry_id np).1.nextWaitlistId =
      db.nextWaitlistId := by
  cases hf : db.waitlist.find? (·.id == entry_id) with
  | none => simp [update_waitlist_entry, hf]
  | some cur => simp [update_waitlist_entry, hf]

/-- `update_waitlist_entry` preserves the waitlist invariant. -/
theorem winv_reposition (db : DB) (entry_id : Nat) (np : Int) (h : WInv db) :
    WInv (update_waitlist_entry db entry_id np).1 := by
  cases hf : db.waitlist.find? (·.id == entry_id) with
  | none =>
    have e1 : (update_waitlist_entry db entry_id np).1 = db := by
      simp [update_waitlist_entry, hf]
    rw [e1]
    exact h
  | some cur =>
    have hcmem := List.mem_of_find?_eq_some hf
    have hcid : cur.id = entry_id := by simpa using List.find?_some hf
    have heq' : (update_waitlist_entry db entry_id np).1.waitlist =
        db.waitlist.map (repositionRow entry_id
          (clampPos np (eventWaitlist db cur.event_id).length)
          cur.event_id cur.position) :=
      (update_waitlist_entry_eq db entry_id np cur h.nodupIds hf).2.2.2.2
    constructor
    · rw [heq', ids_map_eq _ _ (repositionRow_id _ _ _ _)]
      exact h.nodupIds
    · intro w hw
      rw [update_waitlist_entry_next]
      rw [heq'] at hw
      obtain ⟨s, hs, rfl⟩ := List.mem_map.1 hw
      rw [repositionRow_id]
      exact h.idsLt s hs
    · intro eid
      show Contiguous
        (posOf (update_waitlist_entry db entry_id np).1.waitlist eid)
      rw [heq']
      have hN : (eventWaitlist db cur.event_id).length =
          (posOf db.waitlist cur.event_id).length := by
        unfold posOf eventWaitlist
        rw [List.length_map]
      have hNpos : 1 ≤ (posOf db.waitlist cur.event_id).length := by
        rw [← hN]
        have hcin : cur ∈ eventWaitlist db cur.event_id := by
          unfold eventWaitlist
          exact List.mem_filter.2 ⟨hcmem, by simp⟩
        exact List.length_pos_of_mem hcin
      have hcb : 1 ≤ clampPos np (eventWaitlist db cur.event_id).length ∧
          clampPos np (eventWaitlist db cur.event_id).length ≤
            (posOf db.waitlist cur.event_id).length := by
        rw [hN]
        unfold clampPos
        omega
      exact contig_reposition db.waitlist cur entry_id _ h.nodupIds hcmem
        hcid hcb.1 hcb.2 h.contig eid

/-- The waitlist operations of C4: overflow placement (`create_booking`),
removal, and reposition. -/
inductive WOp where
  | create (event_id : Nat) (email : String) (group_size : Nat)
      (names : Option (List String))
  | remove (entry_id : Nat)
  | reposition (entry_id : Nat) (new_position : Int)

/-- State reached by one waitlist operation. -/
def applyWOp (db : DB) : WOp → DB
  | .create e m g n => (create_booking db e m g n).1
  | .remove i => (delete_waitlist_entry db i).1
  | .reposition i p => (update_waitlist_entry db i p).1

/-- State reached by a sequence of waitlist operations. -/
def applyWOps (db : DB) (ops : List WOp) : DB :=
  ops.foldl applyWOp db

theorem applyWOps_cons (db : DB) (op : WOp) (ops : List WOp) :
    applyWOps db (op :: ops) = applyWOps (applyWOp db op) ops := rfl

/-- Each operation preserves the waitlist invariant. -/
theorem winv_applyWOp (db : DB) (op : WOp) (h : WInv db) :
    WInv (applyWOp db op) := by
  cases op with
  | create e m g n => exact winv_create db e m g n h
  | remove i => exact winv_delete db i h
  | reposition i p => exact winv_reposition db i p h

/-- Any sequence of operations preserves the waitlist invariant. -/
theorem winv_applyWOps (db : DB) (ops : List WOp) (h : WInv db) :
    WInv (applyWOps db ops) := by
  induction ops generalizing db with
  | nil => exact h
  | cons op ops ih =>
    rw [applyWOps_cons]
    exact ih _ (winv_applyWOp db op h)

/-- C4.  Waitlist contiguity: starting from an empty waitlist, after any
sequence of overflow placements (`create_booking`), removals
(`delete_waitlist_entry`) and repositions (`update_waitlist_entry`), the
positions of every event's waitlist entries form the contiguous sequence
`1..N` with no duplicates and no gaps. -/
theorem waitlist_contiguity (db0 : DB) (ops : List WOp)
    (h0 : db0.waitlist = []) :
    ∀ eid, Contiguous (posList (applyWOps db0 ops) eid) := by
  have hbase : WInv db0 := by
    constructor
    · rw [h0]
      exact List.nodup_nil
    · intro w hw
      rw [h0] at hw
      cases hw
    · intro eid
      show Contiguous (posOf db0.waitlist eid)
      rw [h0]
      exact List.Perm.refl _
  exact (winv_applyWOps db0 ops hbase).contig

/-- Concrete database for the contiguity witness: one event of capacity 0,
so every admission overflows onto the waitlist. -/
def dbC4 : DB :=
  { events := [{ id := 1, max_participants := 0 }],
    users := [{ id := 1, email := "a" }],
    bookings := [], waitlist := [], tasks := [],
    nextBookingId := 0, nextWaitlistId := 0, nextTaskId := 0 }

/-- Witness for C4 on a concrete sequence of three overflow placements, a
removal and a clamped reposition. -/
theorem waitlist_contiguity_witness :
    Contiguous (posList (applyWOps dbC4
      [WOp.create 1 "a" 1 none, WOp.create 1 "a" 1 none,
       WOp.create 1 "a" 1 none, WOp.remove 1, WOp.reposition 2 (-3)]) 1) :=
  waitlist_contiguity dbC4
    [WOp.create 1 "a" 1 none, WOp.create 1 "a" 1 none,
     WOp.create 1 "a" 1 none, WOp.remove 1, WOp.reposition 2 (-3)] rfl 1

/-!
### Capacity invariant machinery (C1)
-/

/-- The capacity invariant: no event's booked total exceeds its capacity. -/
def CapInv (db : DB) : Prop :=
  ∀ eid cap, eventCapacity db eid = some cap → bookedSeats db eid ≤ cap

theorem seatsOf_cons (b : Booking) (bs : List Booking) (eid : Nat) :
    seatsOf (b :: bs) eid =
      (if b.event_id = eid then b.group_size else 0) + seatsOf bs eid := by
  unfold seatsOf
  by_cases hb : b.event_id = eid
  · rw [List.filter_cons_of_pos (by simp [hb]), if_pos hb]
    simp
  · rw [List.filter_cons_of_neg (by simp [hb]), if_neg hb]
    simp

theorem seatsOf_append (bs : List Booking) (b : Booking) (eid : Nat) :
    seatsOf (bs ++ [b]) eid =
      seatsOf bs eid + (if b.event_id = eid then b.group_size else 0) := by
  unfold seatsOf
  rw [List.filter_append, List.map_append, List.sum_append]
  congr 1
  by_cases hb : b.event_id = eid
  · rw [List.filter_cons_of_pos (by simp [hb]), if_pos hb]
    simp
  · rw [List.filter_cons_of_neg (by simp [hb]), if_neg hb]
    simp

theorem seatsOf_filter_le (bs : List Booking) (p : Booking → Bool)
    (eid : Nat) : seatsOf (bs.filter p) eid ≤ seatsOf bs eid := by
  induction bs with
  | nil => exact Nat.le_refl _
  | cons b bs ih =>
    by_cases hpb : p b
    · rw [List.filter_cons_of_pos hpb, seatsOf_cons, seatsOf_cons]
      omega
    · rw [List.filter_cons_of_neg hpb, seatsOf_cons]
      omega

theorem eventCapacity_congr {db db' : DB} (h : db'.events = db.events) :
    eventCapacity db' = eventCapacity db := by
  unfold eventCapacity
  rw [h]

theorem bookedSeats_congr {db db' : DB} (h : db'.bookings = db.bookings) :
    bookedSeats db' = bookedSeats db := by
  unfold bookedSeats
  rw [h]

/-- The promotion loop adds at most `fuel` seats to the event. -/
theorem promoteGo_seats_le (eid : Nat) :
    ∀ (fuel : Nat) (db : DB),
      bookedSeats (promoteGo db eid fuel) eid ≤ bookedSeats db eid + fuel := by
  intro fuel
  induction fuel with
  | zero =>
    intro db
    simp [promoteGo]
  | succ f ih =>
    intro db
    cases hm : minPosEntry db eid with
    | none =>
      simp [promoteGo, hm]
    | some w =>
      simp only [promoteGo, hm]
      refine Nat.le_trans (ih _) ?_
      show bookedSeats { db with
          waitlist := db.waitlist.filter (·.id != w.id),
          bookings := db.bookings ++ [_],
          nextBookingId := db.nextBookingId + 1 } eid + f ≤
        bookedSeats db eid + (f + 1)
      have hb : bookedSeats { db with
          waitlist := db.waitlist.filter (·.id != w.id),
          bookings := db.bookings ++
            [{ id := db.nextBookingId, user_id := w.user_id, event_id := eid,
               group_size := 1, status := "pending", is_paid := false,
               is_attended := false, group_names := none }],
          nextBookingId := db.nextBookingId + 1 } eid =
          bookedSeats db eid + 1 := by
        show seatsOf (db.bookings ++ [_]) eid = _
        rw [seatsOf_append, if_pos rfl]
        rfl
      rw [hb]
      omega

/-- The promotion loop never touches other events' booked seats. -/
theorem promoteGo_other (eid e' : Nat) (hne : e' ≠ eid) :
    ∀ (fuel : Nat) (db : DB),
      bookedSeats (promoteGo db eid fuel) e' = bookedSeats db e' := by
  intro fuel
  induction fuel with
  | zero =>
    intro db
    simp [promoteGo]
  | succ f ih =>
    intro db
    cases hm : minPosEntry db eid with
    | none => simp [promoteGo, hm]
    | some w =>
      simp only [promoteGo, hm]
      rw [ih]
      show seatsOf (db.bookings ++ [_]) e' = _
      rw [seatsOf_append, if_neg (fun hh => hne hh.symm), Nat.add_zero]
      rfl

/-- The promotion loop never changes the event table. -/
theorem promoteGo_events (eid : Nat) :
    ∀ (fuel : Nat) (db : DB), (promoteGo db eid fuel).events = db.events := by
  intro fuel
  induction fuel with
  | zero =>
    intro db
    simp [promoteGo]
  | succ f ih =>
    intro db
    cases hm : minPosEntry db eid with
    | none => simp [promoteGo, hm]
    | some w =>
      simp only [promoteGo, hm]
      rw [ih]

/-- Task creation touches only the task table and counter. -/
theorem create_waitlist_tasks_frame (i : Nat) (ms : List String)
    (s : Option String) :
    ∀ db : DB, (create_waitlist_tasks db i ms s).bookings = db.bookings ∧
      (create_waitlist_tasks db i ms s).events = db.events := by
  unfold create_waitlist_tasks
  induction ms with
  | nil => exact fun db => ⟨rfl, rfl⟩
  | cons m ms ih =>
    intro db
    rw [List.foldl_cons]
    exact ih _

/-- Notify fan-out touches only the task table and counter. -/
theorem notify_frame (db : DB) (eid : Nat) :
    (notify_waitlist_users db eid).bookings = db.bookings ∧
    (notify_waitlist_users db eid).events = db.events := by
  unfold notify_waitlist_users
  generalize list_waitlist db eid = es
  induction es generalizing db with
  | nil => exact ⟨rfl, rfl⟩
  | cons e es ih =>
    rw [List.foldl_cons]
    obtain ⟨h1, h2⟩ := ih (create_waitlist_tasks db e.id ["telegram", "vk", "max"] none)
    obtain ⟨h3, h4⟩ := create_waitlist_tasks_frame e.id ["telegram", "vk", "max"] none db
    exact ⟨h1.trans h3, h2.trans h4⟩

/-- `create_booking` preserves the capacity invariant: it only inserts a
booking after checking `booked + group_size ≤ capacity`. -/
theorem capinv_create (db : DB) (e : Nat) (m : String) (g : Nat)
    (n : Option (List String)) (h : CapInv db) :
    CapInv (create_booking db e m g n).1 := by
  cases hu : findUserByEmail db m with
  | none =>
    have e1 : (create_booking db e m g n).1 = db := by
      simp [create_booking, hu]
    rw [e1]
    exact h
  | some uid =>
    cases he : eventCapacity db e with
    | none =>
      have e1 : (create_booking db e m g n).1 = db := by
        simp [create_booking, hu, he]
      rw [e1]
      exact h
    | some cap0 =>
      by_cases hadm : bookedSeats db e + g ≤ cap0
      · have e1 : (create_booking db e m g n).1 =
            { db with
                bookings := db.bookings ++
                  [{ id := db.nextBookingId, user_id := uid, event_id := e,
                     group_size := g, status := "pending", is_paid := false,
                     is_attended := false, group_names := normNames n }],
                nextBookingId := db.nextBookingId + 1 } := by
          simp [create_booking, hu, he, hadm]
        rw [e1]
        intro eid cap hc
        have hc' : eventCapacity db eid = some cap := hc
        show seatsOf (db.bookings ++ [_]) eid ≤ cap
        rw [seatsOf_append]
        by_cases heid : e = eid
        · subst heid
          rw [if_pos rfl]
          have hcapeq : cap0 = cap := Option.some.inj (he.symm.trans hc')
          show bookedSeats db e + g ≤ cap
          omega
        · rw [if_neg heid, Nat.add_zero]
          exact h eid cap hc'
      · have e1 : (create_booking db e m g n).1 =
            { db with
                waitlist := db.waitlist ++
                  [{ id := db.nextWaitlistId, event_id := e, user_id := uid,
                     position := maxWaitlistPos db e + 1 }],
                nextWaitlistId := db.nextWaitlistId + 1 } := by
          simp [create_booking, hu, he, hadm]
        rw [e1]
        intro eid cap hc
        exact h eid cap hc

/-- `delete_booking_with_promotion` preserves the capacity invariant under
both the auto-promote and the notify policy. -/
theorem capinv_delete (db : DB) (bid : Nat) (auto : Bool) (h : CapInv db) :
    CapInv (delete_booking_with_promotion db bid auto).1 := by
  cases hfb : db.bookings.find? (·.id == bid) with
  | none =>
    have e1 : (delete_booking_with_promotion db bid auto).1 = db := by
      simp [delete_booking_with_promotion, hfb]
    rw [e1]
    exact h
  | some b =>
    have h1 : CapInv { db with bookings := db.bookings.filter (·.id != bid) } := by
      intro eid cap hc
      have hc' : eventCapacity db eid = some cap := hc
      exact Nat.le_trans (seatsOf_filter_le db.bookings _ eid) (h eid cap hc')
    cases auto with
    | true =>
      have e1 : (delete_booking_with_promotion db bid true).1 =
          promote_from_waitlist
            { db with bookings := db.bookings.filter (·.id != bid) }
            b.event_id := by
        simp [delete_booking_with_promotion, hfb]
      rw [e1]
      cases hcap2 : eventCapacity
          { db with bookings := db.bookings.filter (·.id != bid) }
          b.event_id with
      | none =>
        have e2 : promote_from_waitlist
            { db with bookings := db.bookings.filter (·.id != bid) }
            b.event_id =
            { db with bookings := db.bookings.filter (·.id != bid) } := by
          simp [promote_from_waitlist, hcap2]
        rw [e2]
        exact h1
      | some cap2 =>
        have e2 : promote_from_waitlist
            { db with bookings := db.bookings.filter (·.id != bid) }
            b.event_id =
            promoteGo { db with bookings := db.bookings.filter (·.id != bid) }
              b.event_id
              (cap2 - bookedSeats
                { db with bookings := db.bookings.filter (·.id != bid) }
                b.event_id) := by
          simp [promote_from_waitlist, hcap2, promoteLoop]
        rw [e2]
        intro eid cap hc
        have hev := promoteGo_events b.event_id
          (cap2 - bookedSeats
            { db with bookings := db.bookings.filter (·.id != bid) }
            b.event_id)
          { db with bookings := db.bookings.filter (·.id != bid) }
        rw [eventCapacity_congr hev] at hc
        by_cases heid : eid = b.event_id
        · have hseats := h1 b.event_id cap2 hcap2
          have hle := promoteGo_seats_le b.event_id
            (cap2 - bookedSeats
              { db with bookings := db.bookings.filter (·.id != bid) }
              b.event_id)
            { db with bookings := db.bookings.filter (·.id != bid) }
          have hcapeq : cap2 = cap :=
            Option.some.inj (hcap2.symm.trans (heid ▸ hc))
          rw [heid]
          omega
        · rw [promoteGo_other b.event_id eid heid]
          exact h1 eid cap hc
    | false =>
      have e1 : (delete_booking_with_promotion db bid false).1 =
          notify_waitlist_users
            { db with bookings := db.bookings.filter (·.id != bid) }
            b.event_id := by
        simp [delete_booking_with_promotion, hfb]
      rw [e1]
      intro eid cap hc
      obtain ⟨hbk, hev⟩ := notify_frame
        { db with bookings := db.bookings.filter (·.id != bid) } b.event_id
      rw [eventCapacity_congr hev] at hc
      rw [bookedSeats_congr hbk]
      exact h1 eid cap hc

/-- `confirm_waitlist` preserves the capacity invariant: it books one seat
only after checking `booked < capacity`. -/
theorem capinv_confirm (db : DB) (i : Nat) (m t : String) (h : CapInv db) :
    CapInv (confirm_waitlist db i m t).1 := by
  cases hf : db.waitlist.find? (·.id == i) with
  | none =>
    have e1 : (confirm_waitlist db i m t).1 = db := by
      simp [confirm_waitlist, hf]
    rw [e1]
    exact h
  | some wl =>
    cases hu : findUserByEmail db m with
    | none =>
      have e1 : (confirm_waitlist db i m t).1 = db := by
        simp [confirm_waitlist, hf, hu]
      rw [e1]
      exact h
    | some uid =>
      by_cases hne : uid ≠ wl.user_id
      · have e1 : (confirm_waitlist db i m t).1 = db := by
          simp [confirm_waitlist, hf, hu, hne]
        rw [e1]
        exact h
      · cases hcapq : eventCapacity db wl.event_id with
        | none =>
          have e1 : (confirm_waitlist db i m t).1 = db := by
            simp [confirm_waitlist, hf, hu, hne, hcapq]
          rw [e1]
          exact h
        | some cap0 =>
          by_cases hfull : cap0 ≤ bookedSeats db wl.event_id
          · have e1 : (confirm_waitlist db i m t).1 = db := by
              simp [confirm_waitlist, hf, hu, hne, hcapq, hfull]
            rw [e1]
            exact h
          · have e1 : (confirm_waitlist db i m t).1 =
                complete_waitlist_tasks
                  { db with
                      waitlist := (db.waitlist.filter (·.id != i)).map
                        (fun w =>
                          if w.event_id = wl.event_id ∧
                              wl.position < w.position then
                            { w with position := w.position - 1 }
                          else w),
                      bookings := db.bookings ++
                        [{ id := db.nextBookingId, user_id := wl.user_id,
                           event_id := wl.event_id, group_size := 1,
                           status := "pending", is_paid := false,
                           is_attended := false, group_names := none }],
                      nextBookingId := db.nextBookingId + 1 } i t := by
              simp [confirm_waitlist, hf, hu, hne, hcapq, hfull]
            rw [e1]
            intro eid cap hc
            have hc' : eventCapacity db eid = some cap := hc
            show seatsOf (db.bookings ++ [_]) eid ≤ cap
            rw [seatsOf_append]
            by_cases heid : wl.event_id = eid
            · subst heid
              rw [if_pos rfl]
              have hcapeq : cap0 = cap := Option.some.inj (hcapq.symm.trans hc')
              show bookedSeats db wl.event_id + 1 ≤ cap
              omega
            · rw [if_neg heid, Nat.add_zero]
              exact h eid cap hc'

/-- The core booking operations quantified over in C1 (without the
capacity-unchecked `update_booking`, which breaks the invariant). -/
inductive CoreOp where
  | create (event_id : Nat) (email : String) (group_size : Nat)
      (names : Option (List String))
  | deleteBooking (booking_id : Nat) (auto : Bool)
  | confirm (entry_id : Nat) (email : String) (now : String)

/-- State reached by one core operation. -/
def applyCoreOp (db : DB) : CoreOp → DB
  | .create e m g n => (create_booking db e m g n).1
  | .deleteBooking b a => (delete_booking_with_promotion db b a).1
  | .confirm i m t => (confirm_waitlist db i m t).1

/-- State reached by a sequence of core operations. -/
def applyCoreOps (db : DB) (ops : List CoreOp) : DB :=
  ops.foldl applyCoreOp db

theorem applyCoreOps_cons (db : DB) (op : CoreOp) (ops : List CoreOp) :
    applyCoreOps db (op :: ops) = applyCoreOps (applyCoreOp db op) ops := rfl

/-- Concrete database used for the C1 counterexample and witness. -/
def dbC1 : DB :=
  { events := [{ id := 1, max_participants := 1 }],
    users := [{ id := 1, email := "a" }],
    bookings := [], waitlist := [], tasks := [],
    nextBookingId := 0, nextWaitlistId := 0, nextTaskId := 0 }

/-- C1 counterexample: a state reached through the core operations `create`
then `update` has a booked total of 2 seats against a capacity of 1 —
`update_booking` re-validates nothing against capacity, so the claimed
invariant over {create, update, delete-with-promotion, confirm} is false. -/
theorem capacity_invariant_breaks_under_update :
    eventCapacity
      (update_booking (create_booking dbC1 1 "a" 1 none).1 0 (some 2) false
        none).1 1 = some 1 ∧
    bookedSeats
      (update_booking (create_booking dbC1 1 "a" 1 none).1 0 (some 2) false
        none).1 1 = 2 := by
  decide

/-- C1 amended.  For every state satisfying the capacity invariant (for
all resources, `Σ party_size ≤ capacity`), every state reachable through
the core operations create, delete-with-promotion (either policy) and
waitlist confirm — excluding update, which re-validates nothing — still
satisfies it. -/
theorem capacity_invariant_core_ops (db0 : DB) (ops : List CoreOp)
    (h : CapInv db0) : CapInv (applyCoreOps db0 ops) := by
  induction ops generalizing db0 with
  | nil => exact h
  | cons op ops ih =>
    rw [applyCoreOps_cons]
    refine ih _ ?_
    cases op with
    | create e m g n => exact capinv_create db0 e m g n h
    | deleteBooking b a => exact capinv_delete db0 b a h
    | confirm i m t => exact capinv_confirm db0 i m t h

/-- Witness for the amended C1 on a concrete operation sequence. -/
theorem capacity_invariant_core_ops_witness :
    CapInv (applyCoreOps dbC1
      [CoreOp.create 1 "a" 1 none, CoreOp.create 1 "a" 1 none,
       CoreOp.deleteBooking 0 true, CoreOp.confirm 0 "a" "T"]) :=
  capacity_invariant_core_ops dbC1
    [CoreOp.create 1 "a" 1 none, CoreOp.create 1 "a" 1 none,
     CoreOp.deleteBooking 0 true, CoreOp.confirm 0 "a" "T"]
    (fun _ _ _ => Nat.zero_le _)

end EventPlanner
